import Mathlib

/-!
Verification development for the `action-automatic-release` GitHub action.

The definitions below are a shallow embedding of `src/AutomaticRelease.ts`,
`src/ParsedCommit.ts` and `src/utils.ts` (current revision), together with the
interface behaviour of the external collaborators the source calls:

* the `semver` package (`valid`, `rcompare`, `lt`) — modelled by `semverValid`,
  `semverRcompareInt` and `semverLt` below, following the published semantic
  versioning precedence rules that package implements;
* JavaScript string primitives (`trim`, `includes`, regular-expression tests)
  — modelled character-by-character on `List Char`;
* the GitHub REST API — modelled by the `Remote` structure: ref lookup and
  commit comparison as function fields returning `Except` (so that the
  "Not Found" versus fatal-error distinction of the source is visible), the
  release store as explicit state.

Machine integers do not occur: tag names, hashes and messages are strings and
ids are naturals (the dry-run sentinel `-1` is an `Int`).
-/

-- ============================================================================
-- JavaScript string primitives
-- ============================================================================

/-- The character class matched by `\s` in a JavaScript regular expression and
removed by `String.prototype.trim`: tab, LF, VT, FF, CR, space, NBSP, the
Unicode space separators, LS, PS, NNBSP, MMSP, ideographic space and BOM. -/
def isJsWhitespace (c : Char) : Bool :=
  let n := c.toNat
  n == 9 || n == 10 || n == 11 || n == 12 || n == 13 || n == 32 ||
  n == 160 || n == 5760 || (8192 ≤ n && n ≤ 8202) ||
  n == 8232 || n == 8233 || n == 8239 || n == 8287 || n == 12288 || n == 65279

/-- `String.prototype.trim`. -/
def jsTrim (s : String) : String :=
  String.mk (((s.data.dropWhile isJsWhitespace).reverse.dropWhile isJsWhitespace).reverse)

/-- `String.prototype.includes(pat)`: some suffix of `s` starts with `pat`. -/
def includesSubstr (s pat : String) : Bool :=
  s.data.tails.any (fun t => pat.data.isPrefixOf t)

/-- Truthiness of a JavaScript `string | null | undefined` value: both absent
values and the empty string are falsy. -/
def optTruthy (o : Option String) : Bool :=
  !(o.getD "").isEmpty

-- ============================================================================
-- The semver collaborator: data model
-- ============================================================================

/-- One dot-separated prerelease identifier: the `semver` package keeps an
all-numeric identifier (below `Number.MAX_SAFE_INTEGER`) as a number and any
other identifier as a string (a list of its characters here). -/
inductive PreId where
  | num (n : Nat)
  | str (s : List Char)
deriving DecidableEq, Repr

/-- A parsed semantic version.  Build metadata is retained but never compared,
per the semver precedence rules. -/
structure SemVer where
  major : Nat
  minor : Nat
  patch : Nat
  prerelease : List PreId
  build : List (List Char)
deriving DecidableEq, Repr

-- ============================================================================
-- The semver collaborator: validity (`semver.valid`)
-- ============================================================================

/-- `Number.MAX_SAFE_INTEGER`. -/
def maxSafeInteger : Nat := 2 ^ 53 - 1

/-- Characters allowed inside a prerelease or build identifier:
`[0-9A-Za-z-]`. -/
def isIdChar (c : Char) : Bool :=
  c.isDigit || (('a' ≤ c) && (c ≤ 'z')) || (('A' ≤ c) && (c ≤ 'Z')) || c == '-'

/-- Numeric value of a list of decimal digits. -/
def digitsToNat (ds : List Char) : Nat :=
  ds.foldl (fun n c => n * 10 + (c.toNat - 48)) 0

/-- Parse one `major`/`minor`/`patch` component: a maximal digit run matching
`0|[1-9]\d*` whose value stays within `Number.MAX_SAFE_INTEGER`.  Returns the
value and the unconsumed remainder. -/
def parseMainNum (cs : List Char) : Option (Nat × List Char) :=
  let ds := cs.takeWhile Char.isDigit
  let rest := cs.dropWhile Char.isDigit
  if ds.isEmpty then none
  else if ds.head? == some '0' && ds.length > 1 then none
  else if digitsToNat ds > maxSafeInteger then none
  else some (digitsToNat ds, rest)

/-- Split a character list on `.` separators. -/
def splitOnDot (cs : List Char) : List (List Char) :=
  cs.foldr (fun c acc =>
    match acc with
    | [] => if c == '.' then [[], []] else [[c]]
    | seg :: segs => if c == '.' then [] :: seg :: segs else (c :: seg) :: segs) [[]]

/-- Validate one prerelease identifier against
`(?:0|[1-9]\d*|\d*[a-zA-Z-][0-9a-zA-Z-]*)` and convert it: an all-numeric
identifier without leading zeroes becomes `PreId.num` when it is a safe
integer (otherwise the package keeps the raw string). -/
def parsePreId (seg : List Char) : Option PreId :=
  if seg.isEmpty then none
  else if !(seg.all isIdChar) then none
  else if seg.all Char.isDigit then
    if seg.head? == some '0' && seg.length > 1 then none
    else if digitsToNat seg < maxSafeInteger then some (.num (digitsToNat seg))
    else some (.str seg)
  else some (.str seg)

/-- Validate one build identifier against `[0-9a-zA-Z-]+`. -/
def parseBuildId (seg : List Char) : Option (List Char) :=
  if seg.isEmpty then none
  else if !(seg.all isIdChar) then none
  else some seg

/-- Map a validator over the dot-separated segments of a suffix. -/
def parseDotted {α : Type} (one : List Char → Option α) (cs : List Char) :
    Option (List α) :=
  (splitOnDot cs).mapM one

/-- Parse the optional `-prerelease` / `+build` tail of a version. -/
def parseTail (cs : List Char) : Option (List PreId × List (List Char)) :=
  match cs with
  | [] => some ([], [])
  | '+' :: rest => (parseDotted parseBuildId rest).map (fun b => ([], b))
  | '-' :: rest =>
    let preChars := rest.takeWhile (fun c => isIdChar c || c == '.')
    let after := rest.dropWhile (fun c => isIdChar c || c == '.')
    match parseDotted parsePreId preChars with
    | none => none
    | some pre =>
      match after with
      | [] => some (pre, [])
      | '+' :: b => (parseDotted parseBuildId b).map (fun bs => (pre, bs))
      | _ => none
  | _ => none

/-- `semver.valid` / the `SemVer` constructor of the `semver` package: length
limit, `trim`, optional leading `v`, then the strict
`major.minor.patch(-prerelease)?(+build)?` grammar. -/
def semverValid (s : String) : Option SemVer :=
  if s.length > 256 then none
  else
    let cs := (jsTrim s).data
    let cs := match cs with
      | 'v' :: rest => rest
      | other => other
    match parseMainNum cs with
    | none => none
    | some (major, r1) =>
      match r1 with
      | '.' :: r1' =>
        match parseMainNum r1' with
        | none => none
        | some (minor, r2) =>
          match r2 with
          | '.' :: r2' =>
            match parseMainNum r2' with
            | none => none
            | some (patch, r3) =>
              match parseTail r3 with
              | none => none
              | some (pre, build) =>
                some { major, minor, patch, prerelease := pre, build }
          | _ => none
      | _ => none

/-- Boolean form of semver validity, as used by the source's tag filter
(`.filter((tag) => semverValid(tag.name))`). -/
def semverValidB (s : String) : Bool :=
  (semverValid s).isSome

-- ============================================================================
-- The semver collaborator: precedence (`semver.rcompare`, `semver.lt`)
-- ============================================================================

/-- Lexicographic comparison of lists by an element comparator; a strict
prefix compares below the longer list. -/
def cmpLex {α : Type} (c : α → α → Ordering) : List α → List α → Ordering
  | [], [] => .eq
  | [], _ :: _ => .lt
  | _ :: _, [] => .gt
  | a :: as, b :: bs => (c a b).then (cmpLex c as bs)

/-- JavaScript `<` / `>` on the characters of two identifiers, by code unit.
Prerelease identifiers only contain ASCII `[0-9A-Za-z-]`, where code-unit
order and code-point order agree. -/
def cmpChar (a b : Char) : Ordering :=
  compare a.toNat b.toNat

/-- `compareIdentifiers` of the `semver` package: numeric identifiers compare
numerically and sort below alphanumeric ones; alphanumeric identifiers
compare as strings. -/
def cmpPreId : PreId → PreId → Ordering
  | .num n, .num m => compare n m
  | .num _, .str _ => .lt
  | .str _, .num _ => .gt
  | .str s, .str t => cmpLex cmpChar s t

/-- `comparePre` of the `semver` package: a version with prerelease
identifiers sorts below the same version without; two nonempty identifier
lists compare lexicographically. -/
def cmpPre : List PreId → List PreId → Ordering
  | [], [] => .eq
  | [], _ :: _ => .gt
  | _ :: _, [] => .lt
  | a :: as, b :: bs => cmpLex cmpPreId (a :: as) (b :: bs)

/-- `semver.compare`: major, minor, patch, then prerelease; build metadata is
ignored. -/
def semverCmp (a b : SemVer) : Ordering :=
  (compare a.major b.major).then
    ((compare a.minor b.minor).then
      ((compare a.patch b.patch).then (cmpPre a.prerelease b.prerelease)))

/-- The laws of a total-preorder comparator, enough to sort with it. -/
structure CmpLaws {α : Type} (c : α → α → Ordering) : Prop where
  swap : ∀ a b, c b a = (c a b).swap
  eq_congr : ∀ a b, c a b = .eq → ∀ x, c a x = c b x
  lt_trans : ∀ a b d, c a b = .lt → c b d = .lt → c a d = .lt

/-- String-level version comparison.  The `semver` package throws on an
invalid argument; the source only ever compares validated tag names, so
invalid strings never reach the interesting branch — they are ordered below
every valid version (and equal among themselves) to keep the comparator
total. -/
def semverCmpStr (a b : String) : Ordering :=
  match semverValid a, semverValid b with
  | some x, some y => semverCmp x y
  | some _, none => .gt
  | none, some _ => .lt
  | none, none => .eq

-- ============================================================================
-- Previous-tag search (`getTagBeforeCurrentTag` in `AutomaticRelease.ts`)
-- ============================================================================

/-- An error thrown by the action or surfaced from the GitHub client; the
source distinguishes cases by the message text. -/
structure GhError where
  message : String
deriving DecidableEq, Repr

/-- The integer comparator `semver.rcompare` (descending order). -/
def orderingToInt : Ordering → Int
  | .lt => -1
  | .eq => 0
  | .gt => 1

def semverRcompareInt (a b : String) : Int :=
  orderingToInt (semverCmpStr b a)

/-- `semver.lt`. -/
def semverLt (a b : String) : Bool :=
  semverCmpStr a b == .lt

/-- The sort order induced by the `semverRcompare` comparator: `a` stays
before `b` when the comparator is non-positive. -/
def descLe (a b : String) : Bool :=
  semverRcompareInt a b ≤ 0

/-- Stable insertion of an element: it lands before the first entry it
compares less-or-equal to. -/
def insertByLe {α : Type} (le : α → α → Bool) (a : α) : List α → List α
  | [] => [a]
  | b :: bs => if le a b then a :: b :: bs else b :: insertByLe le a bs

/-- Stable insertion sort by a boolean comparator. -/
def stableSortByLe {α : Type} (le : α → α → Bool) : List α → List α
  | [] => []
  | a :: as => insertByLe le a (stableSortByLe le as)

/-- `.sort((a, b) => semverRcompare(a.semverName, b.semverName))`: the
JavaScript engine's sort is stable, modelled by a stable insertion sort by
the comparator. -/
def sortDescBySemver (l : List String) : List String :=
  stableSortByLe descLe l

/-- `getTagBeforeCurrentTag`: reject an invalid current tag, filter the
remote tag names to valid versions, sort them descending, return the first
strictly below the current tag (`null` when none is).  The source's
intermediate records `{ name, semverName }` carry the same string in both
fields and are elided. -/
def getTagBeforeCurrentTag (allTags : List String) (currentTag : String) :
    Except GhError (Option String) :=
  match semverValid currentTag with
  | none => .error ⟨"The currentTag \"" ++ currentTag ++
      "\" does not appear to conform to semantic versioning."⟩
  | some _ =>
    let semverTags := sortDescBySemver (allTags.filter semverValidB)
    .ok (semverTags.find? (fun tag => semverLt tag currentTag))

-- ============================================================================
-- Commit data model (`ParsedCommit.ts` and the commit-parser collaborator)
-- ============================================================================

/-- One pull request associated with a commit. -/
structure PullRequestRef where
  number : Nat
  url : String
deriving DecidableEq, Repr

/-- `ParsedCommit` of `ParsedCommit.ts`. -/
structure ParsedCommit where
  authorName : String
  htmlUrl : String
  sha : String
  type : Option String := none
  header : Option String := none
  footer : Option String := none
  body : Option String := none
  scope : Option String := none
  subject : Option String := none
  pullRequests : List PullRequestRef := []
deriving DecidableEq, Repr

/-- One `{ key, label }` entry of `ALL_COMMIT_TYPES`. -/
structure CommitType where
  key : String
  label : String
deriving DecidableEq, Repr

/-- `ALL_COMMIT_TYPES` of `ParsedCommit.ts`, in declaration order. -/
def ALL_COMMIT_TYPES : List CommitType :=
  [⟨"feat", "Features"⟩,
   ⟨"fix", "Bug Fixes"⟩,
   ⟨"docs", "Documentation"⟩,
   ⟨"style", "Styles"⟩,
   ⟨"refactor", "Code Refactoring"⟩,
   ⟨"perf", "Performance Improvements"⟩,
   ⟨"test", "Tests"⟩,
   ⟨"build", "Builds"⟩,
   ⟨"ci", "Continuous Integration"⟩,
   ⟨"chore", "Chores"⟩,
   ⟨"revert", "Reverts"⟩]

/-- The fields the `conventional-commits-parser` collaborator extracts from a
raw commit message (the fields the source consumes). -/
structure ParsedMessage where
  merge : Option String := none
  type : Option String := none
  header : Option String := none
  footer : Option String := none
  body : Option String := none
  scope : Option String := none
  subject : Option String := none
deriving DecidableEq, Repr

-- ============================================================================
-- Changelog rendering (`generateChangeLog`, `getFormattedChangeLogEntry`)
-- ============================================================================

/-- `SHORT_SHA_LEN`. -/
def SHORT_SHA_LEN : Nat := 8

/-- `EOL` from `node:os` on the Linux runners this action targets. -/
def EOL : String := "\n"

/-- JavaScript template interpolation of a `string | null` field: `null`
renders as the text `null`. -/
def jsInterpolate (o : Option String) : String :=
  match o with
  | some s => s
  | none => "null"

/-- Drop an expected literal from the front of a character list. -/
def stripLit (pat s : List Char) : Option (List Char) :=
  match pat, s with
  | [], rest => some rest
  | _ :: _, [] => none
  | p :: ps, c :: cs => if c = p then stripLit ps cs else none

/-- Consume one-or-more JavaScript whitespace characters (`\s+`, greedy). -/
def stripWs1 (s : List Char) : Option (List Char) :=
  match s with
  | [] => none
  | c :: rest => if isJsWhitespace c then some (rest.dropWhile isJsWhitespace) else none

/-- The test of the regular expression `/^BREAKING\s+CHANGES?:\s+/`. -/
def breakingReMatch (s : List Char) : Bool :=
  (match stripLit "BREAKING".data s with
   | none => none
   | some r1 =>
     match stripWs1 r1 with
     | none => none
     | some r2 =>
       match stripLit "CHANGE".data r2 with
       | none => none
       | some r3 =>
         match r3 with
         | 'S' :: ':' :: r4 => stripWs1 r4
         | ':' :: r4 => stripWs1 r4
         | _ => none).isSome

def testBreakingRe (s : String) : Bool :=
  breakingReMatch s.data

/-- The Breaking Changes filter of `generateChangeLog`:
`re.test(commit.body ?? '') || re.test(commit.footer ?? '')`. -/
def isBreakingChangeCommit (commit : ParsedCommit) : Bool :=
  testBreakingRe (commit.body.getD "") || testBreakingRe (commit.footer.getD "")

/-- The catch-all filter of `generateChangeLog`:
`!commit.type || !commitTypeKeys.includes(commit.type)` (a missing or empty
type is falsy). -/
def isUncategorizedCommit (commit : ParsedCommit) : Bool :=
  match commit.type with
  | none => true
  | some t => t.isEmpty || !((ALL_COMMIT_TYPES.map CommitType.key).contains t)

/-- `getFormattedChangeLogEntry`.  `SHORT_SHA_LEN - 1 = 7` characters of the
hash are kept (`substring(0, SHORT_SHA_LEN - 1)`).  The source first writes a
dash-and-scope value into `entry` and then overwrites `entry` wholesale in
the categorized branch, so neither the dash nor the scope reaches the
output; only the final values are modelled. -/
def getFormattedChangeLogEntry (commit : ParsedCommit) : String :=
  let url := commit.htmlUrl
  let shortSha := commit.sha.take (SHORT_SHA_LEN - 1)
  let author := commit.authorName
  let prMessages := commit.pullRequests.map
    (fun pr => "[#" ++ toString pr.number ++ "](" ++ pr.url ++ ")")
  let prString := String.intercalate "," prMessages
  if optTruthy commit.type then
    jsInterpolate commit.subject ++ prString ++ " ([" ++ author ++ "](" ++ url ++ "))"
  else
    "[`" ++ shortSha ++ "`](" ++ url ++ "): " ++ jsInterpolate commit.header ++
      " (" ++ author ++ ") " ++ prString

/-- The section list that `generateChangeLog` walks, in source order:
Breaking Changes, then each entry of `ALL_COMMIT_TYPES` with the strict
equality filter `commit.type === key`, then the catch-all Commits section. -/
def sectionDefs : List (String × (ParsedCommit → Bool)) :=
  ("Breaking Changes", isBreakingChangeCommit) ::
    (ALL_COMMIT_TYPES.map (fun t => (t.label, fun c => c.type == some t.key))) ++
    [("Commits", isUncategorizedCommit)]

/-- The body of `writeToChangeLog`: nothing for an empty section, otherwise
two paragraph breaks, the `## <label>` header and the trimmed entry lines. -/
def sectionText (label : String) (entryLines : List String) : String :=
  if entryLines.length > 0 then
    EOL ++ EOL ++ EOL ++ EOL ++ "## " ++ label ++ EOL ++
      jsTrim (String.intercalate EOL entryLines)
  else ""

def writeSection (parsedCommits : List ParsedCommit)
    (d : String × (ParsedCommit → Bool)) : String :=
  sectionText d.1 ((parsedCommits.filter d.2).map getFormattedChangeLogEntry)

/-- The pure rendering core of `generateChangeLog`: concatenate every
section's text and trim the result. -/
def generateChangeLogFromCommits (parsedCommits : List ParsedCommit) : String :=
  jsTrim (String.join (sectionDefs.map (writeSection parsedCommits)))

/-- Structured view of the rendered changelog: the label and the filtered
commits of each section that actually appears (empty sections are omitted,
exactly as `writeToChangeLog` skips them). -/
def changeLogSections (parsedCommits : List ParsedCommit) :
    List (String × List ParsedCommit) :=
  (sectionDefs.map (fun d => (d.1, parsedCommits.filter d.2))).filter
    (fun s => !s.2.isEmpty)

/-- The thirteen section labels in their fixed order. -/
def changeLogSectionLabels : List String :=
  ["Breaking Changes", "Features", "Bug Fixes", "Documentation", "Styles",
   "Code Refactoring", "Performance Improvements", "Tests", "Builds",
   "Continuous Integration", "Chores", "Reverts", "Commits"]

/-- Spec-side reading of the breaking-change marker: the text begins with
`BREAKING`, whitespace, `CHANGE` or `CHANGES`, a colon and whitespace. -/
def BreakingMarkerSpec (s : String) : Prop :=
  ∃ (w1 plural w2 rest : List Char),
    w1 ≠ [] ∧ w2 ≠ [] ∧
    (∀ c ∈ w1, isJsWhitespace c = true) ∧ (∀ c ∈ w2, isJsWhitespace c = true) ∧
    (plural = [] ∨ plural = ['S']) ∧
    s.data = "BREAKING".data ++ w1 ++ "CHANGE".data ++ plural ++ [':'] ++ w2 ++ rest

-- ============================================================================
-- Remote collaborator model (GitHub API used by `AutomaticRelease.ts`)
-- ============================================================================

/-- One commit as returned by the compare endpoint: the fields the source
reads (`sha`, `commit.message`, `commit.author?.name`, `html_url`). -/
structure RawCommit where
  sha : String
  message : String
  authorName : Option String := none
  htmlUrl : String := ""
deriving DecidableEq, Repr

/-- A release record owned by the hosting platform. -/
structure Release where
  id : Nat
  tagName : String
  name : String
  draft : Bool
  prerelease : Bool
  body : String
  uploadUrl : String
deriving DecidableEq, Repr

/-- The remote hosting service.  Ref lookup and range comparison are opaque
functions returning `Except` so the "Not Found" / fatal-error split of the
source stays visible; the release store is concrete state implementing the
get/create/update contract of the spec's remote-collaborator table. -/
structure Remote where
  getRef : String → Except GhError String
  tagNames : List String
  compareCommits : String → String → Except GhError (List RawCommit)
  prsFor : String → List PullRequestRef
  releases : List Release
  nextReleaseId : Nat
  uploadUrlOf : Nat → String

/-- `getTagHash`: a `Not Found` failure of the ref lookup becomes `null`, any
other failure is rethrown. -/
def getTagHash (remote : Remote) (refName : String) : Except GhError (Option String) :=
  match remote.getRef refName with
  | .ok sha => .ok (some sha)
  | .error e =>
    if includesSubstr e.message "Not Found" then .ok none else .error e

/-- `isTagExists`: `Boolean(await this.getTagHash(refName))`. -/
def isTagExists (remote : Remote) (refName : String) : Except GhError Bool :=
  (getTagHash remote refName).map optTruthy

/-- `repos.getReleaseByTag` on the modelled release store: the first stored
release for the tag, or a `Not Found` failure. -/
def getReleaseByTag (remote : Remote) (tag : String) : Except GhError Release :=
  match remote.releases.find? (fun r => r.tagName == tag) with
  | some r => .ok r
  | none => .error ⟨"Not Found"⟩

/-- `getReleaseId`: a `Not Found` failure of the release lookup becomes
`null`, any other failure is rethrown. -/
def getReleaseId (remote : Remote) (tag : String) : Except GhError (Option Nat) :=
  match getReleaseByTag remote tag with
  | .ok r => .ok (some r.id)
  | .error e =>
    if includesSubstr e.message "Not Found" then .ok none else .error e

/-- Truthiness of the `ReleaseId | null` value `getReleaseId` returns: both
`null` and the number `0` are falsy in the source's `if (releaseId)`. -/
def releaseIdTruthy (o : Option Nat) : Bool :=
  o.getD 0 != 0

/-- The `releaseConfig` object of `createOrUpdateRelease` (owner/repo fields
elided). -/
structure ReleaseConfig where
  tag_name : String
  name : String
  draft : Bool
  prerelease : Bool
  body : String
deriving DecidableEq, Repr

def applyConfig (r : Release) (cfg : ReleaseConfig) : Release :=
  { r with
    tagName := cfg.tag_name
    name := cfg.name
    draft := cfg.draft
    prerelease := cfg.prerelease
    body := cfg.body }

/-- `repos.updateRelease`: overwrite the fields of the release with the given
id in place and answer the updated record. -/
def updateRelease (remote : Remote) (releaseId : Nat) (cfg : ReleaseConfig) :
    Remote × Option Release :=
  let releases := remote.releases.map
    (fun r => if r.id == releaseId then applyConfig r cfg else r)
  ({ remote with releases := releases },
   releases.find? (fun r => r.id == releaseId))

/-- `repos.createRelease`: append a fresh release with a platform-assigned id
and upload endpoint. -/
def createRelease (remote : Remote) (cfg : ReleaseConfig) : Remote × Release :=
  let r : Release :=
    { id := remote.nextReleaseId
      tagName := cfg.tag_name
      name := cfg.name
      draft := cfg.draft
      prerelease := cfg.prerelease
      body := cfg.body
      uploadUrl := remote.uploadUrlOf remote.nextReleaseId }
  ({ remote with
      releases := remote.releases ++ [r]
      nextReleaseId := remote.nextReleaseId + 1 }, r)

/-- The post-dry-run-check body of `createOrUpdateRelease`: look the release
up by tag and branch to update or create. -/
def createOrUpdateReleaseCore (isDraft isPreRelease : Bool) (remote : Remote)
    (tag releaseName changeLog : String) : Except GhError (Remote × Int × String) :=
  let releaseConfig : ReleaseConfig :=
    { tag_name := tag
      name := releaseName
      draft := isDraft
      prerelease := isPreRelease
      body := changeLog }
  match getReleaseId remote tag with
  | .error e => .error e
  | .ok releaseId =>
    if releaseIdTruthy releaseId then
      match updateRelease remote (releaseId.getD 0) releaseConfig with
      | (remote2, some r) => .ok (remote2, (r.id : Int), r.uploadUrl)
      | (_, none) => .error ⟨"Not Found"⟩
    else
      let res := createRelease remote releaseConfig
      .ok (res.1, (res.2.id : Int), res.2.uploadUrl)

/-- `createOrUpdateRelease`: the dry-run short-circuit with the `-1` / empty
sentinels, otherwise the lookup-and-branch body. -/
def createOrUpdateRelease (isDryRun isDraft isPreRelease : Bool) (remote : Remote)
    (tag releaseName changeLog : String) : Except GhError (Remote × Int × String) :=
  if isDryRun then .ok (remote, -1, "")
  else createOrUpdateReleaseCore isDraft isPreRelease remote tag releaseName changeLog

-- ============================================================================
-- Commit-range retrieval (`getCommitsBetweenCommits`)
-- ============================================================================

/-- The merge-commit test of `getCommitsBetweenCommits`:
`parsedCommit.merge || parsedCommit.header?.startsWith('Merge')`. -/
def isMergeCommitMessage (p : ParsedMessage) : Bool :=
  optTruthy p.merge || (p.header.getD "").startsWith "Merge"

/-- The record pushed for one kept commit: the parsed fields plus author,
URL, hash and the pull requests the remote associates with the hash. -/
def buildParsedCommit (remote : Remote) (p : ParsedMessage) (rc : RawCommit) :
    ParsedCommit :=
  { type := p.type
    header := p.header
    footer := p.footer
    body := p.body
    scope := p.scope
    subject := p.subject
    authorName := rc.authorName.getD "Unknown Author"
    htmlUrl := rc.htmlUrl
    sha := rc.sha
    pullRequests := remote.prsFor rc.sha }

/-- The processing loop of `getCommitsBetweenCommits`: parse each compared
commit, skip merge commits, enrich and keep the rest in order. -/
def processCommits (remote : Remote) (parseMsg : String → ParsedMessage) :
    List RawCommit → List ParsedCommit
  | [] => []
  | rc :: rest =>
    let p := parseMsg rc.message
    if isMergeCommitMessage p then processCommits remote parseMsg rest
    else buildParsedCommit remote p rc :: processCommits remote parseMsg rest

/-- `getCommitsBetweenCommits`: fall back to the `HEAD` base when the
previous-release tag does not exist, compare, then process; every await is a
propagation point for remote failures. -/
def getCommitsBetweenCommits (remote : Remote) (parseMsg : String → ParsedMessage)
    (prevReleaseTag currRelease : String) : Except GhError (List ParsedCommit) :=
  match isTagExists remote ("tags/" ++ prevReleaseTag) with
  | .error e => .error e
  | .ok tagExists =>
    let prevRelease := if tagExists then prevReleaseTag else "HEAD"
    match remote.compareCommits prevRelease currRelease with
    | .error e => .error e
    | .ok commits => .ok (processCommits remote parseMsg commits)

/-- `generateChangeLog`: retrieve the range, then render it. -/
def generateChangeLog (remote : Remote) (parseMsg : String → ParsedMessage)
    (prevReleaseTag currRelease : String) : Except GhError String :=
  (getCommitsBetweenCommits remote parseMsg prevReleaseTag currRelease).map
    generateChangeLogFromCommits

-- ============================================================================
-- Explicit-tag run (`runForExplicitTag`, `getTagName`)
-- ============================================================================

/-- `getTagName`: the capture of `/^(refs\/)?tags\/(?<tagName>.*)$/` (tag
references never contain a line break), failing on a non-tag or empty
capture. -/
def getTagName (tagRef : String) : Except GhError String :=
  let tagName :=
    match stripLit "refs/tags/".data tagRef.data with
    | some rest => String.mk rest
    | none =>
      match stripLit "tags/".data tagRef.data with
      | some rest => String.mk rest
      | none => ""
  if tagName.isEmpty then
    .error ⟨"Reference \"" ++ tagRef ++ "\" does not appear to be a tag"⟩
  else .ok tagName

/-- The exported outputs of a run. -/
structure ActionOutput where
  currReleaseTag : String
  prevReleaseTag : String
  releaseId : Int
  uploadUrl : String
deriving DecidableEq, Repr

/-- `runForExplicitTag`: resolve the pushed tag, find the previous tag
(falling back to the current tag via `?? currentTag`), build the changelog
and reconcile the release. -/
def runForExplicitTag (isDryRun isDraft isPreRelease : Bool) (remote : Remote)
    (parseMsg : String → ParsedMessage) (ctxRef : String) :
    Except GhError (Remote × ActionOutput) :=
  match getTagName ctxRef with
  | .error e => .error e
  | .ok currReleaseTag =>
    match getTagBeforeCurrentTag remote.tagNames currReleaseTag with
    | .error e => .error e
    | .ok prevOpt =>
      let prevReleaseTag := prevOpt.getD currReleaseTag
      match generateChangeLog remote parseMsg prevReleaseTag currReleaseTag with
      | .error e => .error e
      | .ok changeLog =>
        match createOrUpdateRelease isDryRun isDraft isPreRelease remote
            currReleaseTag currReleaseTag changeLog with
        | .error e => .error e
        | .ok res => .ok (res.1,
            { currReleaseTag := currReleaseTag
              prevReleaseTag := prevReleaseTag
              releaseId := res.2.1
              uploadUrl := res.2.2 })

-- ============================================================================
-- Sample commits for concrete instantiations
-- ============================================================================

/-- A categorized (`feat`) commit whose body carries the breaking marker. -/
def breakingFeatCommit : ParsedCommit :=
  { authorName := "Ada"
    htmlUrl := "https://example.com/c1"
    sha := "0123456789abcdef"
    type := some "feat"
    header := some "feat: x"
    body := some "BREAKING CHANGE: drops v1"
    subject := some "x"
    pullRequests := [] }

/-- An uncategorized commit whose body carries the breaking marker. -/
def uncatBreakingCommit : ParsedCommit :=
  { authorName := "Ada"
    htmlUrl := "https://example.com/c2"
    sha := "fedcba9876543210"
    header := some "update all the things"
    body := some "BREAKING CHANGE: drops v1"
    pullRequests := [] }

/-- A parser stub whose fields are all `null`. -/
def trivialParse : String → ParsedMessage := fun _ => {}

/-- A remote whose ref lookups all report `Not Found`, with no tags, an empty
comparison result and no releases. -/
def sampleRemoteNF : Remote :=
  { getRef := fun _ => .error ⟨"Not Found"⟩
    tagNames := []
    compareCommits := fun _ _ => .ok []
    prsFor := fun _ => []
    releases := []
    nextReleaseId := 1
    uploadUrlOf := fun n => "upload-" ++ toString n }

/-- A remote whose ref lookups fail with a transport error. -/
def sampleRemoteRL : Remote :=
  { sampleRemoteNF with getRef := fun _ => .error ⟨"rate limited"⟩ }

/-- The `releaseConfig` record built by `createOrUpdateRelease`. -/
def mkReleaseConfig (isDraft isPreRelease : Bool)
    (tag releaseName changeLog : String) : ReleaseConfig :=
  { tag_name := tag
    name := releaseName
    draft := isDraft
    prerelease := isPreRelease
    body := changeLog }

/-- The release the platform creates from a config. -/
def mkNewRelease (st : Remote) (cfg : ReleaseConfig) : Release :=
  { id := st.nextReleaseId
    tagName := cfg.tag_name
    name := cfg.name
    draft := cfg.draft
    prerelease := cfg.prerelease
    body := cfg.body
    uploadUrl := st.uploadUrlOf st.nextReleaseId }

/-- A remote on which only the tag `1.0.0` exists as a ref, with no listed
tags, an empty comparison result and no releases. -/
def sampleRemoteTagged : Remote :=
  { getRef := fun r => if r == "tags/1.0.0" then .ok "abc" else .error ⟨"Not Found"⟩
    tagNames := []
    compareCommits := fun _ _ => .ok []
    prsFor := fun _ => []
    releases := []
    nextReleaseId := 1
    uploadUrlOf := fun n => "upload-" ++ toString n }

-- ============================================================================
-- Theorems
-- ============================================================================

-- ============================================================================
-- Ordering helpers
-- ============================================================================

theorem Ordering.then_swap (o₁ o₂ : Ordering) :
    (o₁.then o₂).swap = o₁.swap.then o₂.swap := by
  cases o₁ <;> rfl

theorem Ordering.swap_eq_iff (o₁ o₂ : Ordering) :
    o₁.swap = o₂ ↔ o₁ = o₂.swap := by
  cases o₁ <;> cases o₂ <;> simp [Ordering.swap]

theorem CmpLaws.eq_congr_right {α : Type} {c : α → α → Ordering} (h : CmpLaws c)
    {a b : α} (hab : c a b = .eq) (x : α) : c x a = c x b := by
  have h1 := h.swap a x
  have h2 := h.swap b x
  rw [h1, h2, h.eq_congr a b hab x]

theorem CmpLaws.lt_of_lt_of_eq {α : Type} {c : α → α → Ordering} (h : CmpLaws c)
    {a b d : α} (hab : c a b = .lt) (hbd : c b d = .eq) : c a d = .lt := by
  rw [← h.eq_congr_right hbd a]
  exact hab

theorem CmpLaws.lt_of_eq_of_lt {α : Type} {c : α → α → Ordering} (h : CmpLaws c)
    {a b d : α} (hab : c a b = .eq) (hbd : c b d = .lt) : c a d = .lt := by
  rw [h.eq_congr a b hab d]
  exact hbd

theorem CmpLaws.refl {α : Type} {c : α → α → Ordering} (h : CmpLaws c) (a : α) :
    c a a = .eq := by
  have hs := h.swap a a
  cases hv : c a a with
  | lt => rw [hv] at hs; exact absurd hs (by decide)
  | eq => rfl
  | gt => rw [hv] at hs; exact absurd hs (by decide)

/-- Comparing through a projection preserves the laws. -/
theorem CmpLaws.comap {α β : Type} {c : β → β → Ordering} (h : CmpLaws c)
    (f : α → β) : CmpLaws (fun a b => c (f a) (f b)) where
  swap a b := h.swap (f a) (f b)
  eq_congr a b hab x := h.eq_congr (f a) (f b) hab (f x)
  lt_trans a b d := h.lt_trans (f a) (f b) (f d)

/-- Lexicographic composition with `Ordering.then` preserves the laws. -/
theorem CmpLaws.comp {α : Type} {c₁ c₂ : α → α → Ordering}
    (h₁ : CmpLaws c₁) (h₂ : CmpLaws c₂) :
    CmpLaws (fun a b => (c₁ a b).then (c₂ a b)) where
  swap a b := by
    simp only [Ordering.then_swap, h₁.swap a b, h₂.swap a b]
  eq_congr a b hab x := by
    simp only [Ordering.then_eq_eq] at hab
    simp only [h₁.eq_congr a b hab.1 x, h₂.eq_congr a b hab.2 x]
  lt_trans a b d hab hbd := by
    simp only [Ordering.then_eq_lt] at hab hbd ⊢
    rcases hab with h1 | ⟨h1, h1'⟩ <;> rcases hbd with h2 | ⟨h2, h2'⟩
    · exact Or.inl (h₁.lt_trans a b d h1 h2)
    · exact Or.inl (h₁.lt_of_lt_of_eq h1 h2)
    · exact Or.inl (h₁.lt_of_eq_of_lt h1 h2)
    · exact Or.inr ⟨(h₁.eq_congr a b h1 d).trans h2, h₂.lt_trans a b d h1' h2'⟩

theorem natCmpLaws : CmpLaws (compare : Nat → Nat → Ordering) where
  swap a b := by
    rcases Nat.lt_trichotomy a b with h | h | h
    · rw [Nat.compare_eq_lt.mpr h, Nat.compare_eq_gt.mpr h]
      rfl
    · rw [Nat.compare_eq_eq.mpr h, Nat.compare_eq_eq.mpr h.symm]
      rfl
    · rw [Nat.compare_eq_gt.mpr h, Nat.compare_eq_lt.mpr h]
      rfl
  eq_congr a b hab x := by
    rw [Nat.compare_eq_eq.mp hab]
  lt_trans a b d hab hbd :=
    Nat.compare_eq_lt.mpr (Nat.lt_trans (Nat.compare_eq_lt.mp hab) (Nat.compare_eq_lt.mp hbd))

theorem charCmpLaws : CmpLaws cmpChar :=
  natCmpLaws.comap Char.toNat

theorem cmpLexLaws {α : Type} {c : α → α → Ordering} (h : CmpLaws c) :
    CmpLaws (cmpLex c) where
  swap a b := by
    induction a generalizing b with
    | nil => cases b <;> rfl
    | cons x xs ih =>
      cases b with
      | nil => rfl
      | cons y ys =>
        simp only [cmpLex, Ordering.then_swap, h.swap x y, ih ys]
  eq_congr a b hab x := by
    induction a generalizing b x with
    | nil =>
      cases b with
      | nil => rfl
      | cons y ys => simp [cmpLex] at hab
    | cons u us ih =>
      cases b with
      | nil => simp [cmpLex] at hab
      | cons y ys =>
        simp only [cmpLex, Ordering.then_eq_eq] at hab
        cases x with
        | nil => rfl
        | cons z zs =>
          simp only [cmpLex, h.eq_congr u y hab.1 z, ih ys hab.2 zs]
  lt_trans a b d hab hbd := by
    induction a generalizing b d with
    | nil =>
      cases b with
      | nil => simp [cmpLex] at hab
      | cons y ys =>
        cases d with
        | nil => simp [cmpLex] at hbd
        | cons w ws => rfl
    | cons u us ih =>
      cases b with
      | nil => simp [cmpLex] at hab
      | cons y ys =>
        cases d with
        | nil => simp [cmpLex] at hbd
        | cons w ws =>
          simp only [cmpLex, Ordering.then_eq_lt] at hab hbd ⊢
          rcases hab with h1 | ⟨h1, h1'⟩ <;> rcases hbd with h2 | ⟨h2, h2'⟩
          · exact Or.inl (h.lt_trans u y w h1 h2)
          · exact Or.inl (h.lt_of_lt_of_eq h1 h2)
          · exact Or.inl (h.lt_of_eq_of_lt h1 h2)
          · exact Or.inr ⟨(h.eq_congr u y h1 w).trans h2, ih ys ws h1' h2'⟩

theorem cmpPreIdLaws : CmpLaws cmpPreId where
  swap a b := by
    cases a <;> cases b
    · exact natCmpLaws.swap _ _
    · rfl
    · rfl
    · exact (cmpLexLaws charCmpLaws).swap _ _
  eq_congr a b hab x := by
    cases a with
    | num n =>
      cases b with
      | num m =>
        have hnm : n = m := Nat.compare_eq_eq.mp hab
        subst hnm
        rfl
      | str t => exact absurd hab (by simp [cmpPreId])
    | str s =>
      cases b with
      | num m => exact absurd hab (by simp [cmpPreId])
      | str t =>
        cases x with
        | num k => rfl
        | str u => exact (cmpLexLaws charCmpLaws).eq_congr s t hab u
  lt_trans a b d hab hbd := by
    cases a with
    | num n =>
      cases d with
      | str u => cases b <;> rfl
      | num k =>
        cases b with
        | num m => exact natCmpLaws.lt_trans n m k hab hbd
        | str t => exact absurd hbd (by simp [cmpPreId])
    | str s =>
      cases b with
      | num m => exact absurd hab (by simp [cmpPreId])
      | str t =>
        cases d with
        | num k => exact absurd hbd (by simp [cmpPreId])
        | str u => exact (cmpLexLaws charCmpLaws).lt_trans s t u hab hbd

theorem cmpPreLaws : CmpLaws cmpPre where
  swap a b := by
    cases a <;> cases b
    · rfl
    · rfl
    · rfl
    · exact (cmpLexLaws cmpPreIdLaws).swap _ _
  eq_congr a b hab x := by
    cases a with
    | nil =>
      cases b with
      | nil => rfl
      | cons y ys => exact absurd hab (by simp [cmpPre])
    | cons u us =>
      cases b with
      | nil => exact absurd hab (by simp [cmpPre])
      | cons y ys =>
        cases x with
        | nil => rfl
        | cons z zs => exact (cmpLexLaws cmpPreIdLaws).eq_congr _ _ hab _
  lt_trans a b d hab hbd := by
    cases a with
    | nil =>
      cases b with
      | nil => exact absurd hab (by simp [cmpPre])
      | cons y ys => exact absurd hab (by simp [cmpPre])
    | cons u us =>
      cases b with
      | nil => exact absurd hbd (by cases d <;> simp [cmpPre])
      | cons y ys =>
        cases d with
        | nil => rfl
        | cons w ws => exact (cmpLexLaws cmpPreIdLaws).lt_trans _ _ _ hab hbd

theorem semverCmpLaws : CmpLaws semverCmp :=
  (natCmpLaws.comap SemVer.major).comp
    ((natCmpLaws.comap SemVer.minor).comp
      ((natCmpLaws.comap SemVer.patch).comp (cmpPreLaws.comap SemVer.prerelease)))

theorem semverCmpStr_eq_of_valid {a b : String} {x y : SemVer}
    (ha : semverValid a = some x) (hb : semverValid b = some y) :
    semverCmpStr a b = semverCmp x y := by
  simp [semverCmpStr, ha, hb]

theorem semverCmpStr_of_valid_none {a b : String} {x : SemVer}
    (ha : semverValid a = some x) (hb : semverValid b = none) :
    semverCmpStr a b = .gt := by
  simp [semverCmpStr, ha, hb]

theorem semverCmpStr_of_none_valid {a b : String} {y : SemVer}
    (ha : semverValid a = none) (hb : semverValid b = some y) :
    semverCmpStr a b = .lt := by
  simp [semverCmpStr, ha, hb]

theorem semverCmpStr_of_none_none {a b : String}
    (ha : semverValid a = none) (hb : semverValid b = none) :
    semverCmpStr a b = .eq := by
  simp [semverCmpStr, ha, hb]

theorem semverCmpStrLaws : CmpLaws semverCmpStr where
  swap a b := by
    cases hva : semverValid a with
    | none =>
      cases hvb : semverValid b with
      | none => rw [semverCmpStr_of_none_none hvb hva, semverCmpStr_of_none_none hva hvb]; rfl
      | some y => rw [semverCmpStr_of_valid_none hvb hva, semverCmpStr_of_none_valid hva hvb]; rfl
    | some x =>
      cases hvb : semverValid b with
      | none => rw [semverCmpStr_of_none_valid hvb hva, semverCmpStr_of_valid_none hva hvb]; rfl
      | some y =>
        rw [semverCmpStr_eq_of_valid hvb hva, semverCmpStr_eq_of_valid hva hvb]
        exact semverCmpLaws.swap x y
  eq_congr a b hab x := by
    cases hva : semverValid a with
    | none =>
      cases hvb : semverValid b with
      | none =>
        cases hvx : semverValid x with
        | none => rw [semverCmpStr_of_none_none hva hvx, semverCmpStr_of_none_none hvb hvx]
        | some z => rw [semverCmpStr_of_none_valid hva hvx, semverCmpStr_of_none_valid hvb hvx]
      | some y =>
        rw [semverCmpStr_of_none_valid hva hvb] at hab
        exact absurd hab (by decide)
    | some u =>
      cases hvb : semverValid b with
      | none =>
        rw [semverCmpStr_of_valid_none hva hvb] at hab
        exact absurd hab (by decide)
      | some y =>
        rw [semverCmpStr_eq_of_valid hva hvb] at hab
        cases hvx : semverValid x with
        | none => rw [semverCmpStr_of_valid_none hva hvx, semverCmpStr_of_valid_none hvb hvx]
        | some z =>
          rw [semverCmpStr_eq_of_valid hva hvx, semverCmpStr_eq_of_valid hvb hvx]
          exact semverCmpLaws.eq_congr u y hab z
  lt_trans a b d hab hbd := by
    cases hva : semverValid a with
    | none =>
      cases hvb : semverValid b with
      | none =>
        rw [semverCmpStr_of_none_none hva hvb] at hab
        exact absurd hab (by decide)
      | some y =>
        cases hvd : semverValid d with
        | none =>
          rw [semverCmpStr_of_valid_none hvb hvd] at hbd
          exact absurd hbd (by decide)
        | some w => exact semverCmpStr_of_none_valid hva hvd
    | some u =>
      cases hvb : semverValid b with
      | none =>
        rw [semverCmpStr_of_valid_none hva hvb] at hab
        exact absurd hab (by decide)
      | some y =>
        rw [semverCmpStr_eq_of_valid hva hvb] at hab
        cases hvd : semverValid d with
        | none =>
          rw [semverCmpStr_of_valid_none hvb hvd] at hbd
          exact absurd hbd (by decide)
        | some w =>
          rw [semverCmpStr_eq_of_valid hvb hvd] at hbd
          rw [semverCmpStr_eq_of_valid hva hvd]
          exact semverCmpLaws.lt_trans u y w hab hbd

theorem CmpLaws.le_trans {α : Type} {c : α → α → Ordering} (h : CmpLaws c)
    {a b d : α} (h₁ : c a b ≠ .gt) (h₂ : c b d ≠ .gt) : c a d ≠ .gt := by
  intro hgt
  cases hbd : c b d with
  | gt => exact h₂ hbd
  | eq => exact h₁ ((h.eq_congr_right hbd a).trans hgt)
  | lt =>
    cases hab : c a b with
    | gt => exact h₁ hab
    | eq => exact absurd (hgt.symm.trans (h.lt_of_eq_of_lt hab hbd)) (by decide)
    | lt => exact absurd (hgt.symm.trans (h.lt_trans a b d hab hbd)) (by decide)

-- ============================================================================
-- Sorting facts for the previous-tag search
-- ============================================================================

theorem semverRcompareInt_nonpos_iff (a b : String) :
    semverRcompareInt a b ≤ 0 ↔ semverCmpStr b a ≠ .gt := by
  unfold semverRcompareInt
  cases h : semverCmpStr b a <;> simp [orderingToInt]

theorem descLe_eq_true_iff (a b : String) :
    descLe a b = true ↔ semverCmpStr b a ≠ .gt := by
  rw [show descLe a b = decide (semverRcompareInt a b ≤ 0) from rfl, decide_eq_true_iff]
  exact semverRcompareInt_nonpos_iff a b

theorem descLe_trans (a b c : String) (hab : descLe a b = true)
    (hbc : descLe b c = true) : descLe a c = true := by
  rw [descLe_eq_true_iff] at hab hbc ⊢
  exact semverCmpStrLaws.le_trans hbc hab

theorem descLe_total (a b : String) : (descLe a b || descLe b a) = true := by
  rw [Bool.or_eq_true, descLe_eq_true_iff, descLe_eq_true_iff]
  by_cases h : semverCmpStr b a = .gt
  · right
    intro h2
    have hs := semverCmpStrLaws.swap a b
    rw [h2, h] at hs
    exact absurd hs (by decide)
  · exact Or.inl h

theorem mem_insertByLe {α : Type} {le : α → α → Bool} {x a : α} :
    ∀ {l : List α}, x ∈ insertByLe le a l ↔ x = a ∨ x ∈ l := by
  intro l
  induction l with
  | nil => simp [insertByLe]
  | cons b bs ih =>
    rw [insertByLe]
    by_cases h : le a b = true
    · rw [if_pos h]
      simp [List.mem_cons]
    · rw [if_neg h]
      simp only [List.mem_cons, ih]
      tauto

theorem mem_stableSortByLe {α : Type} {le : α → α → Bool} {x : α} :
    ∀ {l : List α}, x ∈ stableSortByLe le l ↔ x ∈ l := by
  intro l
  induction l with
  | nil => simp [stableSortByLe]
  | cons a as ih =>
    rw [stableSortByLe, mem_insertByLe]
    simp [List.mem_cons, ih]

theorem pairwise_insertByLe {α : Type} {le : α → α → Bool}
    (htrans : ∀ a b c, le a b = true → le b c = true → le a c = true)
    (htotal : ∀ a b, (le a b || le b a) = true) (a : α) :
    ∀ {l : List α}, l.Pairwise (fun x y => le x y = true) →
      (insertByLe le a l).Pairwise (fun x y => le x y = true) := by
  intro l
  induction l with
  | nil =>
    intro _
    simp [insertByLe]
  | cons b bs ih =>
    intro hpw
    rw [List.pairwise_cons] at hpw
    rw [insertByLe]
    by_cases h : le a b = true
    · rw [if_pos h, List.pairwise_cons]
      refine ⟨?_, List.pairwise_cons.mpr hpw⟩
      intro y hy
      rcases List.mem_cons.mp hy with rfl | hy'
      · exact h
      · exact htrans a b y h (hpw.1 y hy')
    · rw [if_neg h, List.pairwise_cons]
      have hba : le b a = true := by
        have htot := htotal a b
        rw [Bool.or_eq_true] at htot
        rcases htot with h1 | h1
        · exact absurd h1 h
        · exact h1
      refine ⟨?_, ih hpw.2⟩
      intro y hy
      rcases mem_insertByLe.mp hy with rfl | hy'
      · exact hba
      · exact hpw.1 y hy'

theorem sorted_stableSortByLe {α : Type} {le : α → α → Bool}
    (htrans : ∀ a b c, le a b = true → le b c = true → le a c = true)
    (htotal : ∀ a b, (le a b || le b a) = true) :
    ∀ (l : List α), (stableSortByLe le l).Pairwise (fun x y => le x y = true) := by
  intro l
  induction l with
  | nil => simp [stableSortByLe]
  | cons a as ih =>
    rw [stableSortByLe]
    exact pairwise_insertByLe htrans htotal a ih

theorem find?_pairwise_le {α : Type} {le : α → α → Bool} {p : α → Bool} {t : α} :
    ∀ {l : List α}, l.Pairwise (fun a b => le a b = true) → l.find? p = some t →
      ∀ u ∈ l, p u = true → u = t ∨ le t u = true := by
  intro l
  induction l with
  | nil => intro _ hf; simp at hf
  | cons x xs ih =>
    intro hpw hf u hu hpu
    rw [List.pairwise_cons] at hpw
    cases hpx : p x with
    | true =>
      rw [List.find?_cons_of_pos _ hpx] at hf
      injection hf with hxt
      subst hxt
      rcases List.mem_cons.mp hu with hux | hux
      · exact Or.inl hux
      · exact Or.inr (hpw.1 u hux)
    | false =>
      rw [List.find?_cons_of_neg _ (by rw [hpx]; exact Bool.false_ne_true)] at hf
      rcases List.mem_cons.mp hu with hux | hux
      · rw [hux] at hpu
        rw [hpu] at hpx
        exact absurd hpx (by decide)
      · exact ih hpw.2 hf u hux hpu

theorem semverLt_self_eq_false (t : String) : semverLt t t = false := by
  unfold semverLt
  rw [semverCmpStrLaws.refl t]
  rfl

theorem semverLt_eq_false_of_ge {t u : String} (h : semverCmpStr u t ≠ .gt) :
    semverLt t u = false := by
  unfold semverLt
  cases hc : semverCmpStr t u with
  | lt =>
    have hs := semverCmpStrLaws.swap t u
    rw [hc] at hs
    exact absurd hs h
  | eq => rfl
  | gt => rfl

-- ============================================================================
-- Claim C1
-- ============================================================================

/-- Claim C1, counterexample: on the spec's own example — tags
`["0.9.0", "1.0.0", "1.1.0", "2.0.0-rc.1"]`, current tag `"2.0.0"` — the
resolution of `getTagBeforeCurrentTag` is not `"1.1.0"`: the prerelease
`"2.0.0-rc.1"` is a valid version strictly below `"2.0.0"` and sorts above
`"1.1.0"`, so it is the first hit of the descending scan. -/
theorem c1_counterexample_spec_example :
    getTagBeforeCurrentTag ["0.9.0", "1.0.0", "1.1.0", "2.0.0-rc.1"] "2.0.0" ≠
      Except.ok (some "1.1.0") := by
  intro h
  rw [show getTagBeforeCurrentTag ["0.9.0", "1.0.0", "1.1.0", "2.0.0-rc.1"] "2.0.0" =
    Except.ok (some "2.0.0-rc.1") from rfl] at h
  simp at h

/-- Claim C1 (amended): for every tag list and valid current tag,
`getTagBeforeCurrentTag` filters to valid-version names, sorts them
descending and returns the first strictly below the current version — hence
a returned tag is a valid member of the list, strictly below the current
version, and no other qualifying tag lies strictly above it; on the spec's
example the resolved previous tag is `"2.0.0-rc.1"`, not `"1.1.0"`. -/
theorem c1_prev_tag_resolution (tags : List String) (cur : String)
    (hv : (semverValid cur).isSome = true) :
    getTagBeforeCurrentTag tags cur =
      Except.ok ((sortDescBySemver (tags.filter semverValidB)).find?
        (fun tg => semverLt tg cur)) ∧
    (∀ t, (sortDescBySemver (tags.filter semverValidB)).find?
        (fun tg => semverLt tg cur) = some t →
      t ∈ tags ∧ semverValidB t = true ∧ semverLt t cur = true ∧
      ∀ u ∈ tags, semverValidB u = true → semverLt u cur = true →
        semverLt t u = false) ∧
    getTagBeforeCurrentTag ["0.9.0", "1.0.0", "1.1.0", "2.0.0-rc.1"] "2.0.0" =
      Except.ok (some "2.0.0-rc.1") := by
  obtain ⟨v, hv'⟩ := Option.isSome_iff_exists.mp hv
  refine ⟨?_, ?_, by rfl⟩
  · simp only [getTagBeforeCurrentTag, hv']
  · intro t hf
    have hmem : t ∈ sortDescBySemver (tags.filter semverValidB) :=
      List.mem_of_find?_eq_some hf
    have hmem2 : t ∈ tags.filter semverValidB := mem_stableSortByLe.mp hmem
    have hmem3 := List.mem_filter.mp hmem2
    have hlt0 := List.find?_some hf
    have hlt : semverLt t cur = true := hlt0
    refine ⟨hmem3.1, hmem3.2, hlt, ?_⟩
    intro u hu huv hult
    have humem : u ∈ sortDescBySemver (tags.filter semverValidB) :=
      mem_stableSortByLe.mpr (List.mem_filter.mpr ⟨hu, huv⟩)
    have hpw := sorted_stableSortByLe descLe_trans descLe_total
      (tags.filter semverValidB)
    rcases find?_pairwise_le hpw hf u humem hult with hut | hle
    · rw [hut]
      exact semverLt_self_eq_false t
    · exact semverLt_eq_false_of_ge ((descLe_eq_true_iff t u).mp hle)

/-- Concrete instantiation of `c1_prev_tag_resolution`. -/
theorem c1_prev_tag_resolution_witness :
    (semverValid "2.0.0").isSome = true ∧
    getTagBeforeCurrentTag ["0.9.0", "1.0.0", "1.1.0", "2.0.0-rc.1"] "2.0.0" =
      Except.ok (some "2.0.0-rc.1") :=
  ⟨by rfl, (c1_prev_tag_resolution [] "2.0.0" (by rfl)).2.2⟩

-- ============================================================================
-- Claim C7
-- ============================================================================

theorem getTagBefore_no_candidate {tags : List String} {cur : String}
    (hv : (semverValid cur).isSome = true)
    (hno : ∀ t ∈ tags, ¬(semverValidB t = true ∧ semverLt t cur = true)) :
    getTagBeforeCurrentTag tags cur = .ok none := by
  obtain ⟨v, hv'⟩ := Option.isSome_iff_exists.mp hv
  simp only [getTagBeforeCurrentTag, hv']
  have hfind : (sortDescBySemver (tags.filter semverValidB)).find?
      (fun tg => semverLt tg cur) = none := by
    rw [List.find?_eq_none]
    intro x hx hcontra
    have hx2 := List.mem_filter.mp (mem_stableSortByLe.mp hx)
    exact hno x hx2.1 ⟨hx2.2, hcontra⟩
  rw [hfind]

/-- Claim C7: previous-tag resolution fails if and only if the current tag is
not a valid semantic version; with a valid current tag and no qualifying
remote tag — in particular with no tags at all — it resolves to the
distinct no-previous-release signal `none`, not to an error. -/
theorem c7_invalid_current_vs_no_previous (tags : List String) (cur : String) :
    ((∃ e, getTagBeforeCurrentTag tags cur = .error e) ↔ semverValid cur = none) ∧
    ((semverValid cur).isSome = true →
      (∀ t ∈ tags, ¬(semverValidB t = true ∧ semverLt t cur = true)) →
      getTagBeforeCurrentTag tags cur = .ok none) ∧
    ((semverValid cur).isSome = true →
      getTagBeforeCurrentTag ([] : List String) cur = .ok none) := by
  refine ⟨⟨?_, ?_⟩, ?_, ?_⟩
  · rintro ⟨e, he⟩
    cases h : semverValid cur with
    | none => rfl
    | some v =>
      rw [getTagBeforeCurrentTag, h] at he
      exact absurd he (by simp)
  · intro h
    exact ⟨_, by rw [getTagBeforeCurrentTag, h]⟩
  · intro hv hno
    exact getTagBefore_no_candidate hv hno
  · intro hv
    obtain ⟨v, hv'⟩ := Option.isSome_iff_exists.mp hv
    simp [getTagBeforeCurrentTag, hv', sortDescBySemver, stableSortByLe]

/-- Concrete instantiation of `c7_invalid_current_vs_no_previous`. -/
theorem c7_invalid_current_vs_no_previous_witness :
    getTagBeforeCurrentTag ([] : List String) "1.0.0" = .ok none ∧
    (∃ e, getTagBeforeCurrentTag ([] : List String) "not-a-version" = .error e) :=
  ⟨(c7_invalid_current_vs_no_previous [] "1.0.0").2.2 (by decide),
   (c7_invalid_current_vs_no_previous [] "not-a-version").1.mpr (by decide)⟩

-- ============================================================================
-- The breaking-change pattern: regex test versus spec reading
-- ============================================================================

theorem stripLit_eq_some_iff {pat : List Char} :
    ∀ {s r : List Char}, stripLit pat s = some r ↔ s = pat ++ r := by
  induction pat with
  | nil =>
    intro s r
    simp [stripLit]
  | cons p ps ih =>
    intro s r
    cases s with
    | nil => simp [stripLit]
    | cons c cs =>
      rw [stripLit]
      by_cases h : c = p
      · subst h
        rw [if_pos rfl, ih]
        simp
      · rw [if_neg h]
        simp [h]

theorem stripLit_append (pat r : List Char) : stripLit pat (pat ++ r) = some r :=
  stripLit_eq_some_iff.mpr rfl

theorem stripWs1_eq_some {l r : List Char} (h : stripWs1 l = some r) :
    ∃ w, w ≠ [] ∧ (∀ c ∈ w, isJsWhitespace c = true) ∧ l = w ++ r := by
  cases l with
  | nil => simp [stripWs1] at h
  | cons c cs =>
    rw [stripWs1] at h
    by_cases hw : isJsWhitespace c = true
    · rw [if_pos hw] at h
      injection h with h'
      refine ⟨c :: cs.takeWhile isJsWhitespace, by simp, ?_, ?_⟩
      · intro x hx
        rcases List.mem_cons.mp hx with rfl | hx'
        · exact hw
        · exact List.mem_takeWhile_imp hx'
      · rw [← h', List.cons_append, List.takeWhile_append_dropWhile]
    · rw [if_neg hw] at h
      exact absurd h (by simp)

theorem dropWhile_append_of_all {α : Type} {p : α → Bool} :
    ∀ {w : List α} (l : List α), (∀ c ∈ w, p c = true) →
      List.dropWhile p (w ++ l) = List.dropWhile p l := by
  intro w
  induction w with
  | nil => intro l _; rfl
  | cons c cs ih =>
    intro l hall
    rw [List.cons_append, List.dropWhile_cons, if_pos (hall c (List.mem_cons_self c cs))]
    exact ih l (fun x hx => hall x (List.mem_cons_of_mem c hx))

theorem stripWs1_append_eq {w r : List Char} (hne : w ≠ [])
    (hall : ∀ c ∈ w, isJsWhitespace c = true)
    (hr : List.dropWhile isJsWhitespace r = r) :
    stripWs1 (w ++ r) = some r := by
  cases w with
  | nil => exact absurd rfl hne
  | cons c cs =>
    rw [List.cons_append, stripWs1, if_pos (hall c (List.mem_cons_self c cs))]
    rw [dropWhile_append_of_all r (fun x hx => hall x (List.mem_cons_of_mem c hx)), hr]

theorem stripWs1_append_isSome {w r : List Char} (hne : w ≠ [])
    (hall : ∀ c ∈ w, isJsWhitespace c = true) :
    (stripWs1 (w ++ r)).isSome = true := by
  cases w with
  | nil => exact absurd rfl hne
  | cons c cs =>
    rw [List.cons_append, stripWs1, if_pos (hall c (List.mem_cons_self c cs))]
    rfl

/-- The regex test `/^BREAKING\s+CHANGES?:\s+/` accepts exactly the texts the
spec describes: `BREAKING`, whitespace, `CHANGE` or `CHANGES`, a colon and
whitespace (case-sensitively), then anything. -/
theorem testBreakingRe_iff_spec (s : String) :
    testBreakingRe s = true ↔ BreakingMarkerSpec s := by
  constructor
  · intro h
    unfold testBreakingRe breakingReMatch at h
    split at h
    · simp at h
    · rename_i r1 h1
      split at h
      · simp at h
      · rename_i r2 h2
        split at h
        · simp at h
        · rename_i r3 h3
          split at h
          · rename_i r4
            obtain ⟨r5, h5⟩ := Option.isSome_iff_exists.mp h
            obtain ⟨w2, hw2ne, hw2all, hr4⟩ := stripWs1_eq_some h5
            obtain ⟨w1, hw1ne, hw1all, hr1⟩ := stripWs1_eq_some h2
            refine ⟨w1, ['S'], w2, r5, hw1ne, hw2ne, hw1all, hw2all, Or.inr rfl, ?_⟩
            rw [stripLit_eq_some_iff.mp h1, hr1, stripLit_eq_some_iff.mp h3, hr4]
            simp [List.append_assoc]
          · rename_i r4
            obtain ⟨r5, h5⟩ := Option.isSome_iff_exists.mp h
            obtain ⟨w2, hw2ne, hw2all, hr4⟩ := stripWs1_eq_some h5
            obtain ⟨w1, hw1ne, hw1all, hr1⟩ := stripWs1_eq_some h2
            refine ⟨w1, [], w2, r5, hw1ne, hw2ne, hw1all, hw2all, Or.inl rfl, ?_⟩
            rw [stripLit_eq_some_iff.mp h1, hr1, stripLit_eq_some_iff.mp h3, hr4]
            simp [List.append_assoc]
          · simp at h
  · rintro ⟨w1, plural, w2, rest, hw1ne, hw2ne, hw1all, hw2all, hplural, heq⟩
    unfold testBreakingRe breakingReMatch
    have h1 : stripLit "BREAKING".data s.data =
        some (w1 ++ ("CHANGE".data ++ (plural ++ (':' :: (w2 ++ rest))))) := by
      apply stripLit_eq_some_iff.mpr
      rw [heq]
      simp [List.append_assoc]
    have h2 : stripWs1 (w1 ++ ("CHANGE".data ++ (plural ++ (':' :: (w2 ++ rest))))) =
        some ("CHANGE".data ++ (plural ++ (':' :: (w2 ++ rest)))) := by
      apply stripWs1_append_eq hw1ne hw1all
      rw [show ("CHANGE".data ++ (plural ++ (':' :: (w2 ++ rest)))) =
        'C' :: ("HANGE".data ++ (plural ++ (':' :: (w2 ++ rest)))) from rfl]
      rw [List.dropWhile_cons,
        if_neg (by rw [show isJsWhitespace 'C' = false from rfl]; exact Bool.false_ne_true)]
    have h3 : stripLit "CHANGE".data
        ("CHANGE".data ++ (plural ++ (':' :: (w2 ++ rest)))) =
        some (plural ++ (':' :: (w2 ++ rest))) := stripLit_append _ _
    simp only [h1, h2, h3]
    rcases hplural with rfl | rfl
    · simp only [List.nil_append]
      exact stripWs1_append_isSome hw2ne hw2all
    · simp only [List.singleton_append]
      exact stripWs1_append_isSome hw2ne hw2all

-- ============================================================================
-- Section membership helpers
-- ============================================================================

theorem sectionDefs_cases {d : String × (ParsedCommit → Bool)} (hd : d ∈ sectionDefs) :
    d = ("Breaking Changes", isBreakingChangeCommit) ∨
    (∃ t ∈ ALL_COMMIT_TYPES, d = (t.label, fun c => c.type == some t.key)) ∨
    d = ("Commits", isUncategorizedCommit) := by
  unfold sectionDefs at hd
  rcases List.mem_cons.mp hd with h | h
  · exact Or.inl h
  · rcases List.mem_append.mp h with h2 | h2
    · obtain ⟨t, ht, hte⟩ := List.mem_map.mp h2
      exact Or.inr (Or.inl ⟨t, ht, hte.symm⟩)
    · exact Or.inr (Or.inr (List.mem_singleton.mp h2))

theorem mem_changeLogSections_of {cs : List ParsedCommit}
    {d : String × (ParsedCommit → Bool)} (hd : d ∈ sectionDefs)
    {c : ParsedCommit} (hc : c ∈ cs.filter d.2) :
    (d.1, cs.filter d.2) ∈ changeLogSections cs := by
  unfold changeLogSections
  refine List.mem_filter.mpr ⟨List.mem_map.mpr ⟨d, hd, rfl⟩, ?_⟩
  have hne : (cs.filter d.2).isEmpty = false :=
    List.isEmpty_eq_false.mpr (List.ne_nil_of_mem hc)
  simp [hne]

theorem changeLogSections_inv {cs : List ParsedCommit} {lab : String}
    {es : List ParsedCommit} (h : (lab, es) ∈ changeLogSections cs) :
    ∃ d ∈ sectionDefs, d.1 = lab ∧ es = cs.filter d.2 ∧ es ≠ [] := by
  unfold changeLogSections at h
  have h1 := List.mem_filter.mp h
  obtain ⟨d, hd, heq⟩ := List.mem_map.mp h1.1
  injection heq with hlab hes
  refine ⟨d, hd, hlab, hes.symm, ?_⟩
  intro hnil
  have h2 := h1.2
  rw [hnil] at h2
  simp at h2

theorem commit_type_labels_distinct :
    ∀ t ∈ ALL_COMMIT_TYPES, t.label ≠ "Breaking Changes" ∧ t.label ≠ "Commits" := by
  decide

-- ============================================================================
-- Claim C2
-- ============================================================================

/-- Claim C2: a commit whose body or footer begins with the case-sensitive
`BREAKING CHANGE(S):`-plus-whitespace pattern lands in the Breaking Changes
section, and when it also carries a recognized category it additionally lands
in that category's section. -/
theorem c2_breaking_section_membership (cs : List ParsedCommit) (c : ParsedCommit)
    (hc : c ∈ cs)
    (hb : BreakingMarkerSpec (c.body.getD "") ∨ BreakingMarkerSpec (c.footer.getD "")) :
    (∃ es, ("Breaking Changes", es) ∈ changeLogSections cs ∧ c ∈ es) ∧
    (∀ t ∈ ALL_COMMIT_TYPES, c.type = some t.key →
      ∃ es, (t.label, es) ∈ changeLogSections cs ∧ c ∈ es) := by
  have hbrk : isBreakingChangeCommit c = true := by
    unfold isBreakingChangeCommit
    rcases hb with h | h
    · simp [(testBreakingRe_iff_spec _).mpr h]
    · simp [(testBreakingRe_iff_spec _).mpr h]
  constructor
  · have hd : (("Breaking Changes", isBreakingChangeCommit) :
        String × (ParsedCommit → Bool)) ∈ sectionDefs :=
      List.mem_cons_self _ _
    have hcf : c ∈ cs.filter isBreakingChangeCommit := List.mem_filter.mpr ⟨hc, hbrk⟩
    exact ⟨_, mem_changeLogSections_of hd hcf, hcf⟩
  · intro t ht htype
    have hd : ((t.label, fun x => x.type == some t.key) :
        String × (ParsedCommit → Bool)) ∈ sectionDefs :=
      List.mem_cons.mpr (Or.inr (List.mem_append.mpr (Or.inl
        (List.mem_map_of_mem _ ht))))
    have hcf : c ∈ cs.filter (fun x => x.type == some t.key) :=
      List.mem_filter.mpr ⟨hc, by rw [htype]; simp⟩
    exact ⟨_, mem_changeLogSections_of hd hcf, hcf⟩

/-- Concrete instantiation of `c2_breaking_section_membership`. -/
theorem c2_breaking_section_membership_witness :
    ∃ es, ("Breaking Changes", es) ∈ changeLogSections [breakingFeatCommit] ∧
      breakingFeatCommit ∈ es :=
  (c2_breaking_section_membership [breakingFeatCommit] breakingFeatCommit
    (by simp)
    (Or.inl ⟨[' '], [], [' '], "drops v1".data, by decide, by decide, by decide,
      by decide, Or.inl rfl, by decide⟩)).1

-- ============================================================================
-- Claim C3
-- ============================================================================

/-- Claim C3, counterexample: an uncategorized commit whose body starts with
`BREAKING CHANGE: ` appears in the Breaking Changes section as well, so it
does not appear *only* in the catch-all Commits section. -/
theorem c3_counterexample_breaking_overlap :
    uncatBreakingCommit.type = none ∧
    ("Breaking Changes", [uncatBreakingCommit]) ∈
      changeLogSections [uncatBreakingCommit] ∧
    "Breaking Changes" ≠ "Commits" := by
  refine ⟨rfl, ?_, by decide⟩
  decide

/-- Claim C3 (amended): a commit with no category key, or a key outside the
fixed eleven, appears in the catch-all Commits section and in none of the
eleven category sections; it additionally appears in the Breaking Changes
section exactly when its body or footer matches the breaking pattern. -/
theorem c3_uncategorized_in_commits_only (cs : List ParsedCommit) (c : ParsedCommit)
    (hc : c ∈ cs)
    (htype : c.type = none ∨
      ∃ k, c.type = some k ∧ k ∉ ALL_COMMIT_TYPES.map CommitType.key) :
    (∃ es, ("Commits", es) ∈ changeLogSections cs ∧ c ∈ es) ∧
    (∀ t ∈ ALL_COMMIT_TYPES, ∀ es, (t.label, es) ∈ changeLogSections cs → c ∉ es) ∧
    ((∃ es, ("Breaking Changes", es) ∈ changeLogSections cs ∧ c ∈ es) ↔
      isBreakingChangeCommit c = true) := by
  have huncat : isUncategorizedCommit c = true := by
    unfold isUncategorizedCommit
    rcases htype with h | ⟨k, hk, hnk⟩
    · rw [h]
    · rw [hk]
      have hcont : (ALL_COMMIT_TYPES.map CommitType.key).contains k = false := by
        rw [← Bool.not_eq_true]
        intro hcont
        exact hnk (List.elem_iff.mp hcont)
      show (k.isEmpty || !((ALL_COMMIT_TYPES.map CommitType.key).contains k)) = true
      rw [hcont]
      simp
  refine ⟨?_, ?_, ?_⟩
  · have hd : (("Commits", isUncategorizedCommit) :
        String × (ParsedCommit → Bool)) ∈ sectionDefs :=
      List.mem_cons.mpr (Or.inr (List.mem_append.mpr (Or.inr
        (List.mem_singleton.mpr rfl))))
    have hcf : c ∈ cs.filter isUncategorizedCommit := List.mem_filter.mpr ⟨hc, huncat⟩
    exact ⟨_, mem_changeLogSections_of hd hcf, hcf⟩
  · intro t ht es hes hces
    obtain ⟨d, hd, hdlab, hdes, hne⟩ := changeLogSections_inv hes
    rcases sectionDefs_cases hd with rfl | ⟨u, hu, rfl⟩ | rfl
    · exact (commit_type_labels_distinct t ht).1 hdlab.symm
    · rw [hdes] at hces
      have h2 := (List.mem_filter.mp hces).2
      have h3 : c.type = some u.key := eq_of_beq h2
      rcases htype with h | ⟨k, hk, hnk⟩
      · rw [h] at h3
        exact absurd h3 (by simp)
      · rw [hk] at h3
        injection h3 with h4
        exact hnk (h4 ▸ List.mem_map_of_mem CommitType.key hu)
    · exact (commit_type_labels_distinct t ht).2 hdlab.symm
  · constructor
    · rintro ⟨es, hes, hces⟩
      obtain ⟨d, hd, hdlab, hdes, hne⟩ := changeLogSections_inv hes
      rcases sectionDefs_cases hd with rfl | ⟨u, hu, rfl⟩ | rfl
      · rw [hdes] at hces
        exact (List.mem_filter.mp hces).2
      · exact absurd hdlab (commit_type_labels_distinct u hu).1
      · exact absurd hdlab (by decide)
    · intro hbrk
      have hd : (("Breaking Changes", isBreakingChangeCommit) :
          String × (ParsedCommit → Bool)) ∈ sectionDefs :=
        List.mem_cons_self _ _
      have hcf : c ∈ cs.filter isBreakingChangeCommit := List.mem_filter.mpr ⟨hc, hbrk⟩
      exact ⟨_, mem_changeLogSections_of hd hcf, hcf⟩

/-- Concrete instantiation of `c3_uncategorized_in_commits_only`. -/
theorem c3_uncategorized_in_commits_only_witness :
    ∃ es, ("Commits", es) ∈ changeLogSections [uncatBreakingCommit] ∧
      uncatBreakingCommit ∈ es :=
  (c3_uncategorized_in_commits_only [uncatBreakingCommit] uncatBreakingCommit
    (by simp) (Or.inl rfl)).1

-- ============================================================================
-- Claim C5
-- ============================================================================

theorem stringJoin_cons (a : String) (l : List String) :
    String.join (a :: l) = a ++ String.join l := by
  have key : ∀ (l : List String) (x : String),
      l.foldl (fun r s => r ++ s) x = x ++ l.foldl (fun r s => r ++ s) "" := by
    intro l
    induction l with
    | nil =>
      intro x
      show x = x ++ ""
      rw [String.append_empty]
    | cons b bs ih =>
      intro x
      show bs.foldl _ (x ++ b) = x ++ bs.foldl _ ("" ++ b)
      rw [ih (x ++ b), ih ("" ++ b), String.empty_append, String.append_assoc]
  show (a :: l).foldl (fun r s => r ++ s) "" = a ++ l.foldl (fun r s => r ++ s) ""
  show l.foldl (fun r s => r ++ s) ("" ++ a) = a ++ l.foldl (fun r s => r ++ s) ""
  rw [String.empty_append, key l a]

theorem writeSection_of_empty {cs : List ParsedCommit}
    {d : String × (ParsedCommit → Bool)} (h : cs.filter d.2 = []) :
    writeSection cs d = "" := by
  unfold writeSection sectionText
  rw [h]
  rfl

theorem join_writeSections (cs : List ParsedCommit) :
    ∀ (ds : List (String × (ParsedCommit → Bool))),
      String.join (ds.map (writeSection cs)) =
      String.join (((ds.map (fun d => (d.1, cs.filter d.2))).filter
        (fun s => !s.2.isEmpty)).map
        (fun s => sectionText s.1 (s.2.map getFormattedChangeLogEntry))) := by
  intro ds
  induction ds with
  | nil => rfl
  | cons d ds ih =>
    rw [List.map_cons, stringJoin_cons]
    cases hemp : (cs.filter d.2).isEmpty with
    | true =>
      have hnil : cs.filter d.2 = [] := List.isEmpty_iff.mp hemp
      rw [writeSection_of_empty hnil, String.empty_append, List.map_cons,
        List.filter_cons, if_neg (by rw [hemp]; decide)]
      exact ih
    | false =>
      rw [List.map_cons, List.filter_cons, if_pos (by rw [hemp]; decide),
        List.map_cons, stringJoin_cons, ih]
      rfl

theorem sections_labels_perm_invariant {cs cs' : List ParsedCommit}
    (hperm : cs.Perm cs') :
    ∀ (ds : List (String × (ParsedCommit → Bool))),
      ((ds.map (fun d => (d.1, cs.filter d.2))).filter
        (fun s => !s.2.isEmpty)).map Prod.fst =
      ((ds.map (fun d => (d.1, cs'.filter d.2))).filter
        (fun s => !s.2.isEmpty)).map Prod.fst := by
  intro ds
  induction ds with
  | nil => rfl
  | cons d ds ih =>
    have hp : (cs.filter d.2).Perm (cs'.filter d.2) := hperm.filter d.2
    have hemp : (cs.filter d.2).isEmpty = (cs'.filter d.2).isEmpty := by
      by_cases hn : cs.filter d.2 = []
      · rw [hn] at hp
        rw [hn, (hp.symm).eq_nil]
      · have hn' : cs'.filter d.2 ≠ [] := by
          intro h
          rw [h] at hp
          exact hn hp.eq_nil
        rw [List.isEmpty_eq_false.mpr hn, List.isEmpty_eq_false.mpr hn']
    simp only [List.map_cons, List.filter_cons]
    cases hcond : (cs'.filter d.2).isEmpty with
    | true =>
      rw [hemp, hcond]
      simp only [Bool.not_true]
      rw [if_neg Bool.false_ne_true, if_neg Bool.false_ne_true]
      exact ih
    | false =>
      rw [hemp, hcond]
      simp only [Bool.not_false]
      rw [if_pos trivial, if_pos trivial, List.map_cons, List.map_cons, ih]

/-- Claim C5: the rendered sections carry their labels in the fixed thirteen-
label order (a sublist: empty sections are omitted); every rendered section is
nonempty and lists its commits as a sublist of the input (original relative
order, never re-sorted); permuting the input commits yields the same label
sequence; and the rendered string is the join of exactly these sections. -/
theorem c5_section_order_invariants (cs cs' : List ParsedCommit) :
    ((changeLogSections cs).map Prod.fst).Sublist changeLogSectionLabels ∧
    (∀ lab es, (lab, es) ∈ changeLogSections cs → es ≠ [] ∧ es.Sublist cs) ∧
    (cs.Perm cs' →
      (changeLogSections cs).map Prod.fst = (changeLogSections cs').map Prod.fst) ∧
    generateChangeLogFromCommits cs =
      jsTrim (String.join ((changeLogSections cs).map
        (fun s => sectionText s.1 (s.2.map getFormattedChangeLogEntry)))) := by
  refine ⟨?_, ?_, ?_, ?_⟩
  · have h1 : (changeLogSections cs).Sublist
        (sectionDefs.map (fun d => (d.1, cs.filter d.2))) := List.filter_sublist _
    have h2 := h1.map Prod.fst
    rw [List.map_map] at h2
    have h3 : sectionDefs.map (Prod.fst ∘ fun d => (d.1, cs.filter d.2)) =
        changeLogSectionLabels := rfl
    rw [h3] at h2
    exact h2
  · intro lab es h
    obtain ⟨d, hd, hdlab, hdes, hne⟩ := changeLogSections_inv h
    exact ⟨hne, hdes ▸ List.filter_sublist cs⟩
  · intro hperm
    exact sections_labels_perm_invariant hperm sectionDefs
  · exact congrArg jsTrim (join_writeSections cs sectionDefs)

/-- Concrete instantiation of `c5_section_order_invariants`. -/
theorem c5_section_order_invariants_witness :
    (changeLogSections [breakingFeatCommit, uncatBreakingCommit]).map Prod.fst =
    (changeLogSections [uncatBreakingCommit, breakingFeatCommit]).map Prod.fst :=
  (c5_section_order_invariants [breakingFeatCommit, uncatBreakingCommit]
    [uncatBreakingCommit, breakingFeatCommit]).2.2.1
    (List.Perm.swap uncatBreakingCommit breakingFeatCommit [])

-- ============================================================================
-- Claim C9
-- ============================================================================

/-- Claim C9: a categorized commit renders as subject, PR references, then the
author linked to the commit URL; an uncategorized one is prefixed by the
7-character short hash (`SHORT_SHA_LEN - 1`, exactly the first 7 characters of
the hash) followed by the raw header, author and PR references; PR references
are a comma-joined list of markdown link fragments, empty without PRs. -/
theorem c9_entry_format (commit : ParsedCommit) :
    (optTruthy commit.type = true →
      getFormattedChangeLogEntry commit =
        jsInterpolate commit.subject ++
          String.intercalate "," (commit.pullRequests.map
            (fun pr => "[#" ++ toString pr.number ++ "](" ++ pr.url ++ ")")) ++
          " ([" ++ commit.authorName ++ "](" ++ commit.htmlUrl ++ "))") ∧
    (optTruthy commit.type = false →
      getFormattedChangeLogEntry commit =
        "[`" ++ commit.sha.take 7 ++ "`](" ++ commit.htmlUrl ++ "): " ++
          jsInterpolate commit.header ++ " (" ++ commit.authorName ++ ") " ++
          String.intercalate "," (commit.pullRequests.map
            (fun pr => "[#" ++ toString pr.number ++ "](" ++ pr.url ++ ")"))) ∧
    commit.sha.take (SHORT_SHA_LEN - 1) = commit.sha.take 7 ∧
    (commit.pullRequests = [] →
      String.intercalate "," (commit.pullRequests.map
        (fun pr => "[#" ++ toString pr.number ++ "](" ++ pr.url ++ ")")) = "") := by
  refine ⟨?_, ?_, rfl, ?_⟩
  · intro h
    simp only [getFormattedChangeLogEntry]
    rw [if_pos h]
  · intro h
    simp only [getFormattedChangeLogEntry]
    rw [if_neg (by rw [h]; exact Bool.false_ne_true)]
    rfl
  · intro h
    rw [h]
    rfl

/-- Concrete instantiation of `c9_entry_format` on both branches. -/
theorem c9_entry_format_witness :
    getFormattedChangeLogEntry breakingFeatCommit =
      "x ([Ada](https://example.com/c1))" ∧
    getFormattedChangeLogEntry uncatBreakingCommit =
      "[`fedcba9`](https://example.com/c2): update all the things (Ada) " :=
  ⟨by rw [(c9_entry_format breakingFeatCommit).1 (by rfl)]; rfl,
   by rw [(c9_entry_format uncatBreakingCommit).2.1 (by rfl)]; rfl⟩

-- ============================================================================
-- Claim C4
-- ============================================================================

theorem processCommits_eq (remote : Remote) (parseMsg : String → ParsedMessage) :
    ∀ (commits : List RawCommit),
      processCommits remote parseMsg commits =
      (commits.filter (fun rc => !isMergeCommitMessage (parseMsg rc.message))).map
        (fun rc => buildParsedCommit remote (parseMsg rc.message) rc) := by
  intro commits
  induction commits with
  | nil => rfl
  | cons rc rest ih =>
    simp only [processCommits, List.filter_cons]
    cases hm : isMergeCommitMessage (parseMsg rc.message) with
    | true => simp [hm, ih]
    | false => simp [hm, ih]

theorem getCommits_ok_elim {remote : Remote} {parseMsg : String → ParsedMessage}
    {base curr : String} {result : List ParsedCommit}
    (h : (match remote.compareCommits base curr with
      | .error e => .error e
      | .ok commits => .ok (processCommits remote parseMsg commits)) =
      Except.ok result) :
    ∃ commits, remote.compareCommits base curr = .ok commits ∧
      result = processCommits remote parseMsg commits := by
  cases hcmp : remote.compareCommits base curr with
  | error e =>
    rw [hcmp] at h
    exact absurd h (by simp)
  | ok commits =>
    rw [hcmp] at h
    simp only [Except.ok.injEq] at h
    exact ⟨commits, rfl, h.symm⟩

theorem result_from_nonmerge {remote : Remote} {parseMsg : String → ParsedMessage}
    {commits : List RawCommit} {result : List ParsedCommit}
    (hres : result = processCommits remote parseMsg commits) :
    result = (commits.filter
        (fun rc => !isMergeCommitMessage (parseMsg rc.message))).map
      (fun rc => buildParsedCommit remote (parseMsg rc.message) rc) ∧
    (∀ lab es, (lab, es) ∈ changeLogSections result → ∀ c ∈ es,
      ∃ rc ∈ commits, isMergeCommitMessage (parseMsg rc.message) = false ∧
        c = buildParsedCommit remote (parseMsg rc.message) rc) := by
  constructor
  · rw [hres, processCommits_eq]
  · intro lab es hes c hc
    obtain ⟨d, hd, hdlab, hdes, hne⟩ := changeLogSections_inv hes
    rw [hdes] at hc
    have hcres : c ∈ result := (List.mem_filter.mp hc).1
    rw [hres, processCommits_eq] at hcres
    obtain ⟨rc, hrc, hbuild⟩ := List.mem_map.mp hcres
    have hrc2 := List.mem_filter.mp hrc
    refine ⟨rc, hrc2.1, ?_, hbuild.symm⟩
    have h3 := hrc2.2
    cases h4 : isMergeCommitMessage (parseMsg rc.message) with
    | false => rfl
    | true =>
      rw [h4] at h3
      exact absurd h3 (by decide)

/-- Claim C4: a successful range retrieval keeps exactly the non-merge
commits — those whose parsed message has a truthy `merge` field or a header
starting with `Merge` are dropped before rendering — so every entry of every
rendered section stems from a non-merge commit of the compared range. -/
theorem c4_merge_commits_excluded (remote : Remote) (parseMsg : String → ParsedMessage)
    (prevReleaseTag currRelease : String) (result : List ParsedCommit)
    (hok : getCommitsBetweenCommits remote parseMsg prevReleaseTag currRelease =
      .ok result) :
    ∃ base commits, (base = prevReleaseTag ∨ base = "HEAD") ∧
      remote.compareCommits base currRelease = .ok commits ∧
      result = (commits.filter
          (fun rc => !isMergeCommitMessage (parseMsg rc.message))).map
        (fun rc => buildParsedCommit remote (parseMsg rc.message) rc) ∧
      (∀ lab es, (lab, es) ∈ changeLogSections result → ∀ c ∈ es,
        ∃ rc ∈ commits, isMergeCommitMessage (parseMsg rc.message) = false ∧
          c = buildParsedCommit remote (parseMsg rc.message) rc) := by
  unfold getCommitsBetweenCommits at hok
  split at hok
  · exact absurd hok (by simp)
  · rename_i tagExists hex
    cases tagExists with
    | true =>
      have hok2 : (match remote.compareCommits prevReleaseTag currRelease with
        | .error e => .error e
        | .ok commits => .ok (processCommits remote parseMsg commits)) =
          Except.ok result := hok
      obtain ⟨commits, hcmp, hres⟩ := getCommits_ok_elim hok2
      obtain ⟨h1, h2⟩ := result_from_nonmerge hres
      exact ⟨prevReleaseTag, commits, Or.inl rfl, hcmp, h1, h2⟩
    | false =>
      have hok2 : (match remote.compareCommits "HEAD" currRelease with
        | .error e => .error e
        | .ok commits => .ok (processCommits remote parseMsg commits)) =
          Except.ok result := hok
      obtain ⟨commits, hcmp, hres⟩ := getCommits_ok_elim hok2
      obtain ⟨h1, h2⟩ := result_from_nonmerge hres
      exact ⟨"HEAD", commits, Or.inr rfl, hcmp, h1, h2⟩

/-- Concrete instantiation of `c4_merge_commits_excluded`. -/
theorem c4_merge_commits_excluded_witness :
    ∃ base commits, (base = "v1.0.0" ∨ base = "HEAD") ∧
      sampleRemoteNF.compareCommits base "v1.1.0" = .ok commits ∧
      ([] : List ParsedCommit) = (commits.filter
          (fun rc => !isMergeCommitMessage (trivialParse rc.message))).map
        (fun rc => buildParsedCommit sampleRemoteNF (trivialParse rc.message) rc) ∧
      (∀ lab es, (lab, es) ∈ changeLogSections [] → ∀ c ∈ es,
        ∃ rc ∈ commits, isMergeCommitMessage (trivialParse rc.message) = false ∧
          c = buildParsedCommit sampleRemoteNF (trivialParse rc.message) rc) :=
  c4_merge_commits_excluded sampleRemoteNF trivialParse "v1.0.0" "v1.1.0" [] (by rfl)

-- ============================================================================
-- Claim C6
-- ============================================================================

/-- Claim C6: a `Not Found` failure of the base-tag lookup is recoverable —
the range is then computed from the `HEAD` sentinel base and the run goes on;
any other failure of the base lookup, and any failure of the range
comparison, is surfaced as the error itself. -/
theorem c6_base_not_found_recoverable (remote : Remote)
    (parseMsg : String → ParsedMessage) (prev curr : String) :
    (∀ e, remote.getRef ("tags/" ++ prev) = .error e →
      includesSubstr e.message "Not Found" = true →
      getCommitsBetweenCommits remote parseMsg prev curr =
        (remote.compareCommits "HEAD" curr).map (processCommits remote parseMsg)) ∧
    (∀ e, remote.getRef ("tags/" ++ prev) = .error e →
      includesSubstr e.message "Not Found" = false →
      getCommitsBetweenCommits remote parseMsg prev curr = .error e) ∧
    (∀ b e, isTagExists remote ("tags/" ++ prev) = .ok b →
      remote.compareCommits (if b then prev else "HEAD") curr = .error e →
      getCommitsBetweenCommits remote parseMsg prev curr = .error e) := by
  refine ⟨?_, ?_, ?_⟩
  · intro e he hnf
    have hex : isTagExists remote ("tags/" ++ prev) = .ok false := by
      unfold isTagExists getTagHash
      rw [he]
      show Except.map optTruthy (if includesSubstr e.message "Not Found" = true
        then Except.ok none else Except.error e) = Except.ok false
      rw [if_pos hnf]
      rfl
    unfold getCommitsBetweenCommits
    rw [hex]
    show (match remote.compareCommits "HEAD" curr with
      | .error e => .error e
      | .ok commits => .ok (processCommits remote parseMsg commits)) =
      (remote.compareCommits "HEAD" curr).map (processCommits remote parseMsg)
    cases hcmp : remote.compareCommits "HEAD" curr <;> simp [hcmp, Except.map]
  · intro e he hnf
    have hex : isTagExists remote ("tags/" ++ prev) = .error e := by
      unfold isTagExists getTagHash
      rw [he]
      show Except.map optTruthy (if includesSubstr e.message "Not Found" = true
        then Except.ok none else Except.error e) = Except.error e
      rw [if_neg (by rw [hnf]; exact Bool.false_ne_true)]
      rfl
    unfold getCommitsBetweenCommits
    rw [hex]
  · intro b e hex hcmp
    unfold getCommitsBetweenCommits
    rw [hex]
    show (match remote.compareCommits (if b then prev else "HEAD") curr with
      | Except.error e => Except.error e
      | Except.ok commits => Except.ok (processCommits remote parseMsg commits)) =
      (Except.error e : Except GhError (List ParsedCommit))
    rw [hcmp]

/-- Concrete instantiation of `c6_base_not_found_recoverable`: a `Not Found`
base lookup falls back to the `HEAD` base and still succeeds, while a
non-`Not Found` lookup failure aborts with that error. -/
theorem c6_base_not_found_recoverable_witness :
    getCommitsBetweenCommits sampleRemoteNF trivialParse "v1.0.0" "v1.1.0" =
      (sampleRemoteNF.compareCommits "HEAD" "v1.1.0").map
        (processCommits sampleRemoteNF trivialParse) ∧
    getCommitsBetweenCommits sampleRemoteRL trivialParse "v1.0.0" "v1.1.0" =
      Except.error ⟨"rate limited"⟩ :=
  ⟨(c6_base_not_found_recoverable sampleRemoteNF trivialParse "v1.0.0" "v1.1.0").1
      ⟨"Not Found"⟩ rfl (by decide),
   (c6_base_not_found_recoverable sampleRemoteRL trivialParse "v1.0.0" "v1.1.0").2.1
      ⟨"rate limited"⟩ rfl (by decide)⟩

-- ============================================================================
-- Claim C8
-- ============================================================================

theorem applyConfig_id (r : Release) (cfg : ReleaseConfig) :
    (applyConfig r cfg).id = r.id := rfl

theorem update_find (rid : Nat) (cfg : ReleaseConfig) :
    ∀ (releases : List Release),
      (releases.map (fun r => if r.id == rid then applyConfig r cfg else r)).find?
        (fun r => r.id == rid) =
      (releases.find? (fun r => r.id == rid)).map (fun r => applyConfig r cfg) := by
  intro releases
  induction releases with
  | nil => rfl
  | cons r rs ih =>
    simp only [List.map_cons]
    by_cases h : (r.id == rid) = true
    · rw [if_pos h,
        @List.find?_cons_of_pos _ (fun x => x.id == rid) (applyConfig r cfg) _ h,
        @List.find?_cons_of_pos _ (fun x => x.id == rid) r _ h]
      rfl
    · rw [if_neg h,
        @List.find?_cons_of_neg _ (fun x => x.id == rid) r _ h,
        @List.find?_cons_of_neg _ (fun x => x.id == rid) r _ h]
      exact ih

theorem find_tag_after_update {tag : String} {r : Release} (cfg : ReleaseConfig)
    (hcfg : cfg.tag_name = tag) :
    ∀ {releases : List Release},
      releases.find? (fun x => x.tagName == tag) = some r →
      ∃ r', (releases.map
          (fun x => if x.id == r.id then applyConfig x cfg else x)).find?
        (fun x => x.tagName == tag) = some r' ∧ r'.id = r.id := by
  intro releases
  induction releases with
  | nil => intro h; simp at h
  | cons a rs ih =>
    intro hfind
    simp only [List.map_cons]
    by_cases h : (a.tagName == tag) = true
    · rw [@List.find?_cons_of_pos _ (fun x => x.tagName == tag) a rs h] at hfind
      injection hfind with h2
      subst h2
      refine ⟨applyConfig a cfg, ?_, rfl⟩
      rw [if_pos (by simp)]
      exact @List.find?_cons_of_pos _ (fun x => x.tagName == tag) (applyConfig a cfg) _
        (by show ((applyConfig a cfg).tagName == tag) = true
            rw [show (applyConfig a cfg).tagName = cfg.tag_name from rfl, hcfg]
            simp)
    · rw [@List.find?_cons_of_neg _ (fun x => x.tagName == tag) a rs h] at hfind
      obtain ⟨r', hr', hid⟩ := ih hfind
      by_cases hid2 : (a.id == r.id) = true
      · rw [if_pos hid2]
        refine ⟨applyConfig a cfg, ?_, eq_of_beq hid2⟩
        exact @List.find?_cons_of_pos _ (fun x => x.tagName == tag) (applyConfig a cfg) _
          (by show ((applyConfig a cfg).tagName == tag) = true
              rw [show (applyConfig a cfg).tagName = cfg.tag_name from rfl, hcfg]
              simp)
      · rw [if_neg hid2]
        refine ⟨r', ?_, hid⟩
        rw [@List.find?_cons_of_neg _ (fun x => x.tagName == tag) a _ h]
        exact hr'

theorem releaseIdTruthy_of_ne {rid : Nat} (h : rid ≠ 0) :
    releaseIdTruthy (some rid) = true := by
  unfold releaseIdTruthy
  simp [h]

theorem getReleaseId_of_find {st : Remote} {tag : String} {r : Release}
    (h : st.releases.find? (fun x => x.tagName == tag) = some r) :
    getReleaseId st tag = .ok (some r.id) := by
  simp only [getReleaseId, getReleaseByTag, h]

theorem getReleaseId_of_find_none {st : Remote} {tag : String}
    (h : st.releases.find? (fun x => x.tagName == tag) = none) :
    getReleaseId st tag = .ok none := by
  simp only [getReleaseId, getReleaseByTag, h]
  rw [if_pos (by decide)]

theorem createOrUpdate_update_case (isDraft isPreRelease : Bool) (st : Remote)
    (tag releaseName changeLog : String) (rid : Nat) (r₀ : Release)
    (hget : getReleaseId st tag = .ok (some rid)) (hrid : rid ≠ 0)
    (hfindid : st.releases.find? (fun x => x.id == rid) = some r₀) :
    createOrUpdateRelease false isDraft isPreRelease st tag releaseName changeLog =
      .ok (updateRelease st rid
          (mkReleaseConfig isDraft isPreRelease tag releaseName changeLog) |>.1,
        ((applyConfig r₀
          (mkReleaseConfig isDraft isPreRelease tag releaseName changeLog)).id : Int),
        (applyConfig r₀
          (mkReleaseConfig isDraft isPreRelease tag releaseName changeLog)).uploadUrl) := by
  show createOrUpdateReleaseCore isDraft isPreRelease st tag releaseName changeLog = _
  simp only [createOrUpdateReleaseCore, hget]
  rw [if_pos (releaseIdTruthy_of_ne hrid)]
  simp only [updateRelease, update_find, hfindid, Option.map, Option.getD,
    mkReleaseConfig]

theorem createOrUpdate_create_case (isDraft isPreRelease : Bool) (st : Remote)
    (tag releaseName changeLog : String) (rlo : Option Nat)
    (hget : getReleaseId st tag = .ok rlo)
    (hfalse : releaseIdTruthy rlo = false) :
    createOrUpdateRelease false isDraft isPreRelease st tag releaseName changeLog =
      .ok (createRelease st
          (mkReleaseConfig isDraft isPreRelease tag releaseName changeLog) |>.1,
        (st.nextReleaseId : Int), st.uploadUrlOf st.nextReleaseId) := by
  show createOrUpdateReleaseCore isDraft isPreRelease st tag releaseName changeLog = _
  simp only [createOrUpdateReleaseCore, hget]
  rw [if_neg (by rw [hfalse]; exact Bool.false_ne_true)]
  simp only [createRelease, mkReleaseConfig]

theorem ne_zero_of_releaseIdTruthy {rid : Nat}
    (h : releaseIdTruthy (some rid) = true) : rid ≠ 0 := by
  unfold releaseIdTruthy at h
  simpa using h

theorem createOrUpdate_never_errors (isDraft isPreRelease : Bool) (st : Remote)
    (tag releaseName changeLog : String) :
    ∃ out, createOrUpdateRelease false isDraft isPreRelease st tag releaseName
      changeLog = .ok out := by
  cases hfind : st.releases.find? (fun x => x.tagName == tag) with
  | some r =>
    have hg := getReleaseId_of_find hfind
    by_cases htruthy : releaseIdTruthy (some r.id) = true
    · have hidsome : (st.releases.find? (fun x => x.id == r.id)).isSome = true :=
        List.find?_isSome.mpr ⟨r, List.mem_of_find?_eq_some hfind, by simp⟩
      obtain ⟨r₀, hr₀⟩ := Option.isSome_iff_exists.mp hidsome
      exact ⟨_, createOrUpdate_update_case isDraft isPreRelease st tag releaseName
        changeLog r.id r₀ hg (ne_zero_of_releaseIdTruthy htruthy) hr₀⟩
    · exact ⟨_, createOrUpdate_create_case isDraft isPreRelease st tag releaseName
        changeLog (some r.id) hg (Bool.not_eq_true _ ▸ htruthy)⟩
  | none =>
    exact ⟨_, createOrUpdate_create_case isDraft isPreRelease st tag releaseName
      changeLog none (getReleaseId_of_find_none hfind) rfl⟩

/-- Claim C8: with a remote whose release ids are nonzero (as the platform
guarantees), running create-or-update twice with identical inputs against the
resulting states yields the same release id both times; at the start of the
second run a release for the tag exists (so the second run takes the update
path), and the final state holds a release with exactly the given
title/body/draft/prerelease fields under that id. -/
theorem c8_create_or_update_idempotent (remote : Remote) (isDraft isPreRelease : Bool)
    (tag releaseName changeLog : String)
    (h0 : remote.nextReleaseId ≠ 0)
    (hids : ∀ r ∈ remote.releases, r.id ≠ 0) :
    ∃ remote1 id1 url1 remote2 id2 url2,
      createOrUpdateRelease false isDraft isPreRelease remote tag releaseName
        changeLog = .ok (remote1, id1, url1) ∧
      createOrUpdateRelease false isDraft isPreRelease remote1 tag releaseName
        changeLog = .ok (remote2, id2, url2) ∧
      id1 = id2 ∧
      (∃ rid, getReleaseId remote1 tag = .ok (some rid) ∧ rid ≠ 0) ∧
      (∃ r ∈ remote2.releases, (r.id : Int) = id2 ∧ r.tagName = tag ∧
        r.name = releaseName ∧ r.draft = isDraft ∧ r.prerelease = isPreRelease ∧
        r.body = changeLog) := by
  cases hfind : remote.releases.find? (fun x => x.tagName == tag) with
  | some r =>
    have hmem : r ∈ remote.releases := List.mem_of_find?_eq_some hfind
    have hrid0 : r.id ≠ 0 := hids r hmem
    have hg1 : getReleaseId remote tag = .ok (some r.id) := getReleaseId_of_find hfind
    have hidsome : (remote.releases.find? (fun x => x.id == r.id)).isSome = true :=
      List.find?_isSome.mpr ⟨r, hmem, by simp⟩
    obtain ⟨r₀, hr₀⟩ := Option.isSome_iff_exists.mp hidsome
    have hrun1 := createOrUpdate_update_case isDraft isPreRelease remote tag
      releaseName changeLog r.id r₀ hg1 hrid0 hr₀
    obtain ⟨r', hr'find, hr'id⟩ := find_tag_after_update
      (mkReleaseConfig isDraft isPreRelease tag releaseName changeLog) rfl hfind
    have hg2 : getReleaseId (updateRelease remote r.id
        (mkReleaseConfig isDraft isPreRelease tag releaseName changeLog)).1 tag =
        .ok (some r'.id) := getReleaseId_of_find hr'find
    have hr'id0 : r'.id ≠ 0 := by rw [hr'id]; exact hrid0
    have hfind2id : (updateRelease remote r.id
        (mkReleaseConfig isDraft isPreRelease tag releaseName changeLog)).1.releases.find?
        (fun x => x.id == r'.id) = some (applyConfig r₀
          (mkReleaseConfig isDraft isPreRelease tag releaseName changeLog)) := by
      rw [hr'id]
      show (remote.releases.map (fun x => if x.id == r.id then applyConfig x
          (mkReleaseConfig isDraft isPreRelease tag releaseName changeLog) else x)).find?
        (fun x => x.id == r.id) = _
      rw [update_find, hr₀]
      rfl
    have hrun2 := createOrUpdate_update_case isDraft isPreRelease
      (updateRelease remote r.id
        (mkReleaseConfig isDraft isPreRelease tag releaseName changeLog)).1 tag
      releaseName changeLog r'.id
      (applyConfig r₀ (mkReleaseConfig isDraft isPreRelease tag releaseName changeLog))
      hg2 hr'id0 hfind2id
    refine ⟨_, _, _, _, _, _, hrun1, hrun2, rfl, ⟨r'.id, hg2, hr'id0⟩, ?_⟩
    have hfind3 : (updateRelease (updateRelease remote r.id
        (mkReleaseConfig isDraft isPreRelease tag releaseName changeLog)).1 r'.id
        (mkReleaseConfig isDraft isPreRelease tag releaseName changeLog)).1.releases.find?
        (fun x => x.id == r'.id) = some (applyConfig (applyConfig r₀
          (mkReleaseConfig isDraft isPreRelease tag releaseName changeLog))
          (mkReleaseConfig isDraft isPreRelease tag releaseName changeLog)) := by
      show ((updateRelease remote r.id
          (mkReleaseConfig isDraft isPreRelease tag releaseName changeLog)).1.releases.map
          (fun x => if x.id == r'.id then applyConfig x
            (mkReleaseConfig isDraft isPreRelease tag releaseName changeLog) else x)).find?
        (fun x => x.id == r'.id) = _
      rw [update_find, hfind2id]
      rfl
    exact ⟨applyConfig (applyConfig r₀
        (mkReleaseConfig isDraft isPreRelease tag releaseName changeLog))
        (mkReleaseConfig isDraft isPreRelease tag releaseName changeLog),
      List.mem_of_find?_eq_some hfind3, rfl, rfl, rfl, rfl, rfl, rfl⟩
  | none =>
    have hg1 : getReleaseId remote tag = .ok none := getReleaseId_of_find_none hfind
    have hrun1 := createOrUpdate_create_case isDraft isPreRelease remote tag
      releaseName changeLog none hg1 rfl
    have hnew : ((createRelease remote
        (mkReleaseConfig isDraft isPreRelease tag releaseName changeLog)).1.releases).find?
        (fun x => x.tagName == tag) = some (mkNewRelease remote
          (mkReleaseConfig isDraft isPreRelease tag releaseName changeLog)) := by
      show (remote.releases ++ [mkNewRelease remote
          (mkReleaseConfig isDraft isPreRelease tag releaseName changeLog)]).find?
        (fun x => x.tagName == tag) = _
      rw [List.find?_append, hfind]
      show Option.or none _ = _
      rw [@List.find?_cons_of_pos _ (fun x => x.tagName == tag)
        (mkNewRelease remote (mkReleaseConfig isDraft isPreRelease tag releaseName
          changeLog)) [] (by simp [mkNewRelease, mkReleaseConfig])]
      rfl
    have hg2 : getReleaseId (createRelease remote
        (mkReleaseConfig isDraft isPreRelease tag releaseName changeLog)).1 tag =
        .ok (some remote.nextReleaseId) := getReleaseId_of_find hnew
    have hidsome : ((createRelease remote
        (mkReleaseConfig isDraft isPreRelease tag releaseName changeLog)).1.releases.find?
        (fun x => x.id == remote.nextReleaseId)).isSome = true :=
      List.find?_isSome.mpr ⟨mkNewRelease remote
        (mkReleaseConfig isDraft isPreRelease tag releaseName changeLog),
        List.mem_append.mpr (Or.inr (List.mem_singleton.mpr rfl)),
        by simp [mkNewRelease]⟩
    obtain ⟨r₁, hr₁⟩ := Option.isSome_iff_exists.mp hidsome
    have hb₁ := List.find?_some hr₁
    have hr₁id : r₁.id = remote.nextReleaseId := eq_of_beq hb₁
    have hrun2 := createOrUpdate_update_case isDraft isPreRelease
      (createRelease remote
        (mkReleaseConfig isDraft isPreRelease tag releaseName changeLog)).1 tag
      releaseName changeLog remote.nextReleaseId r₁ hg2 h0 hr₁
    refine ⟨_, _, _, _, _, _, hrun1, hrun2, ?_, ⟨remote.nextReleaseId, hg2, h0⟩, ?_⟩
    · show (remote.nextReleaseId : Int) = ((applyConfig r₁
        (mkReleaseConfig isDraft isPreRelease tag releaseName changeLog)).id : Int)
      rw [show (applyConfig r₁
        (mkReleaseConfig isDraft isPreRelease tag releaseName changeLog)).id = r₁.id
        from rfl, hr₁id]
    · have hfind3 : (updateRelease (createRelease remote
          (mkReleaseConfig isDraft isPreRelease tag releaseName changeLog)).1
          remote.nextReleaseId
          (mkReleaseConfig isDraft isPreRelease tag releaseName changeLog)).1.releases.find?
          (fun x => x.id == remote.nextReleaseId) = some (applyConfig r₁
            (mkReleaseConfig isDraft isPreRelease tag releaseName changeLog)) := by
        show ((createRelease remote
            (mkReleaseConfig isDraft isPreRelease tag releaseName changeLog)).1.releases.map
            (fun x => if x.id == remote.nextReleaseId then applyConfig x
              (mkReleaseConfig isDraft isPreRelease tag releaseName changeLog) else x)).find?
          (fun x => x.id == remote.nextReleaseId) = _
        rw [update_find, hr₁]
        rfl
      exact ⟨applyConfig r₁
          (mkReleaseConfig isDraft isPreRelease tag releaseName changeLog),
        List.mem_of_find?_eq_some hfind3, rfl, rfl, rfl, rfl, rfl, rfl⟩

/-- Concrete instantiation of `c8_create_or_update_idempotent`. -/
theorem c8_create_or_update_idempotent_witness :
    ∃ remote1 id1 url1 remote2 id2 url2,
      createOrUpdateRelease false false true sampleRemoteNF "v1.0.0" "v1.0.0"
        "notes" = .ok (remote1, id1, url1) ∧
      createOrUpdateRelease false false true remote1 "v1.0.0" "v1.0.0"
        "notes" = .ok (remote2, id2, url2) ∧
      id1 = id2 ∧
      (∃ rid, getReleaseId remote1 "v1.0.0" = .ok (some rid) ∧ rid ≠ 0) ∧
      (∃ r ∈ remote2.releases, (r.id : Int) = id2 ∧ r.tagName = "v1.0.0" ∧
        r.name = "v1.0.0" ∧ r.draft = false ∧ r.prerelease = true ∧
        r.body = "notes") :=
  c8_create_or_update_idempotent sampleRemoteNF false true "v1.0.0" "v1.0.0"
    "notes" (by decide) (by simp [sampleRemoteNF])

-- ============================================================================
-- Claim C10
-- ============================================================================

/-- Claim C10: in explicit-tag mode, when no remote tag qualifies as strictly
less than the (valid) current tag, the previous tag falls back to the current
tag itself; since the just-pushed tag exists the `HEAD` fallback is not
taken, the range compares the current tag against itself yielding no commits,
the changelog body is empty, and the run's outputs carry the current tag as
`prev_tag`. -/
theorem c10_no_previous_self_compare (isDraft isPreRelease : Bool) (remote : Remote)
    (parseMsg : String → ParsedMessage) (ctxRef cur sha : String)
    (htag : getTagName ctxRef = .ok cur)
    (hvalid : (semverValid cur).isSome = true)
    (hnoprev : ∀ t ∈ remote.tagNames,
      ¬(semverValidB t = true ∧ semverLt t cur = true))
    (href : remote.getRef ("tags/" ++ cur) = .ok sha)
    (hsha : sha.isEmpty = false)
    (hcmp : remote.compareCommits cur cur = .ok []) :
    getCommitsBetweenCommits remote parseMsg cur cur = .ok [] ∧
    generateChangeLog remote parseMsg cur cur = .ok "" ∧
    ∃ res, runForExplicitTag false isDraft isPreRelease remote parseMsg ctxRef =
      .ok res ∧ res.2.prevReleaseTag = cur ∧ res.2.currReleaseTag = cur ∧
      createOrUpdateRelease false isDraft isPreRelease remote cur cur "" =
        .ok (res.1, res.2.releaseId, res.2.uploadUrl) := by
  have hex : isTagExists remote ("tags/" ++ cur) = .ok true := by
    unfold isTagExists getTagHash
    rw [href]
    show Except.ok (optTruthy (some sha)) = Except.ok true
    unfold optTruthy
    rw [show (some sha).getD "" = sha from rfl, hsha]
    rfl
  have hgc : getCommitsBetweenCommits remote parseMsg cur cur = .ok [] := by
    unfold getCommitsBetweenCommits
    rw [hex]
    show (match remote.compareCommits cur cur with
      | Except.error e => Except.error e
      | Except.ok commits => Except.ok (processCommits remote parseMsg commits)) =
      Except.ok ([] : List ParsedCommit)
    rw [hcmp]
    rfl
  have hcl : generateChangeLog remote parseMsg cur cur = .ok "" := by
    unfold generateChangeLog
    rw [hgc]
    rfl
  have hprev : getTagBeforeCurrentTag remote.tagNames cur = .ok none :=
    getTagBefore_no_candidate hvalid hnoprev
  obtain ⟨out, hcr⟩ := createOrUpdate_never_errors isDraft isPreRelease remote
    cur cur ""
  obtain ⟨remote2, id2, url2⟩ := out
  refine ⟨hgc, hcl, (remote2, ⟨cur, cur, id2, url2⟩), ?_, rfl, rfl, hcr⟩
  simp only [runForExplicitTag, htag, hprev, Option.getD_none, hcl, hcr]

/-- Concrete instantiation of `c10_no_previous_self_compare`. -/
theorem c10_no_previous_self_compare_witness :
    getCommitsBetweenCommits sampleRemoteTagged trivialParse "1.0.0" "1.0.0" =
      .ok [] ∧
    generateChangeLog sampleRemoteTagged trivialParse "1.0.0" "1.0.0" = .ok "" ∧
    ∃ res, runForExplicitTag false false true sampleRemoteTagged trivialParse
      "refs/tags/1.0.0" = .ok res ∧ res.2.prevReleaseTag = "1.0.0" ∧
      res.2.currReleaseTag = "1.0.0" ∧
      createOrUpdateRelease false false true sampleRemoteTagged "1.0.0" "1.0.0" "" =
        .ok (res.1, res.2.releaseId, res.2.uploadUrl) :=
  c10_no_previous_self_compare false true sampleRemoteTagged trivialParse
    "refs/tags/1.0.0" "1.0.0" "abc" (by rfl) (by decide)
    (by simp [sampleRemoteTagged]) (by rfl) (by rfl) (by rfl)

